import Mathlib

/-!
Verification of the Merkle Patricia Trie core specified for
`risc0-mpt-collapse`.  The repository's own sources (`src/lib.rs`,
`src/main.rs`) are thin callers of the trie engine: they sort the input
pairs, feed them to the builder with a full proof retainer, reconstruct the
tree from the proof blobs and remove keys.  The trie engine itself (nibble
paths, the node model, codec, builder, proof retainer, reconstructor and
remover) is specified in the design document; following it, the engine is
modelled here and the repository's entry points are translated on top of
that model.  The cryptographic hash is an injected pure function `H`
throughout, exactly as the specification treats it.
-/

namespace Mpt

/-- A nibble: a 4-bit value, the unit of trie indexing. -/
abbrev Nib := Fin 16

/-- A nibble path: ordered sequence of 4-bit values. -/
abbrev Path := List Nib

/-- Byte strings are modelled as lists of naturals. -/
abbrev Bytes := List Nat

/-- A raw key byte. -/
abbrev Byte := Fin 256

/-- Modelled from the spec: the tagged-union node representation
(Empty/Leaf/Extension/Branch) of the trie engine, which is not part of the
repository sources.  A branch stores its 16 child slots as a list (empty
slots hold `Node.empty`) plus an optional value. -/
inductive Node where
  | empty : Node
  | leaf (path : Path) (value : Bytes) : Node
  | ext (path : Path) (child : Node) : Node
  | branch (children : List Node) (value : Option Bytes) : Node
deriving Repr

mutual

def decEqNode : (a b : Node) → Decidable (a = b)
  | .empty, .empty => isTrue rfl
  | .empty, .leaf _ _ => isFalse (fun h => Node.noConfusion h)
  | .empty, .ext _ _ => isFalse (fun h => Node.noConfusion h)
  | .empty, .branch _ _ => isFalse (fun h => Node.noConfusion h)
  | .leaf _ _, .empty => isFalse (fun h => Node.noConfusion h)
  | .leaf p v, .leaf p' v' =>
      match decEq p p', decEq v v' with
      | isTrue h1, isTrue h2 => isTrue (by rw [h1, h2])
      | isFalse h1, _ => isFalse (fun h => by cases h; exact h1 rfl)
      | _, isFalse h2 => isFalse (fun h => by cases h; exact h2 rfl)
  | .leaf _ _, .ext _ _ => isFalse (fun h => Node.noConfusion h)
  | .leaf _ _, .branch _ _ => isFalse (fun h => Node.noConfusion h)
  | .ext _ _, .empty => isFalse (fun h => Node.noConfusion h)
  | .ext _ _, .leaf _ _ => isFalse (fun h => Node.noConfusion h)
  | .ext p c, .ext p' c' =>
      match decEq p p', decEqNode c c' with
      | isTrue h1, isTrue h2 => isTrue (by rw [h1, h2])
      | isFalse h1, _ => isFalse (fun h => by cases h; exact h1 rfl)
      | _, isFalse h2 => isFalse (fun h => by cases h; exact h2 rfl)
  | .ext _ _, .branch _ _ => isFalse (fun h => Node.noConfusion h)
  | .branch _ _, .empty => isFalse (fun h => Node.noConfusion h)
  | .branch _ _, .leaf _ _ => isFalse (fun h => Node.noConfusion h)
  | .branch _ _, .ext _ _ => isFalse (fun h => Node.noConfusion h)
  | .branch cs v, .branch cs' v' =>
      match decEqNodeList cs cs', decEq v v' with
      | isTrue h1, isTrue h2 => isTrue (by rw [h1, h2])
      | isFalse h1, _ => isFalse (fun h => by cases h; exact h1 rfl)
      | _, isFalse h2 => isFalse (fun h => by cases h; exact h2 rfl)

def decEqNodeList : (a b : List Node) → Decidable (a = b)
  | [], [] => isTrue rfl
  | [], _ :: _ => isFalse (fun h => List.noConfusion h)
  | _ :: _, [] => isFalse (fun h => List.noConfusion h)
  | c :: cs, c' :: cs' =>
      match decEqNode c c', decEqNodeList cs cs' with
      | isTrue h1, isTrue h2 => isTrue (by rw [h1, h2])
      | isFalse h1, _ => isFalse (fun h => by cases h; exact h1 rfl)
      | _, isFalse h2 => isFalse (fun h => by cases h; exact h2 rfl)

end

instance : DecidableEq Node := decEqNode

/-- Boolean test for the empty node. -/
def isEmptyN : Node → Bool
  | .empty => true
  | _ => false

theorem isEmptyN_iff {n : Node} : isEmptyN n = true ↔ n = .empty := by
  cases n <;> simp [isEmptyN]

mutual

/-- Height of a node, used as an induction measure for the nested tree. -/
def ht : Node → Nat
  | .empty => 0
  | .leaf _ _ => 0
  | .ext _ c => ht c + 1
  | .branch cs _ => htL cs + 1

def htL : List Node → Nat
  | [] => 0
  | c :: cs => max (ht c) (htL cs)

end

theorem ht_mem_le {c : Node} {cs : List Node} (h : c ∈ cs) : ht c ≤ htL cs := by
  induction cs with
  | nil => cases h
  | cons d ds ih =>
      rcases List.mem_cons.mp h with h | h
      · subst h; simp [htL]
      · simp [htL]; exact Or.inr (ih h)

/-- Boolean prefix test on nibble paths. -/
def pfx : Path → Path → Bool
  | [], _ => true
  | _ :: _, [] => false
  | a :: p, b :: q => if a = b then pfx p q else false

theorem pfx_iff : ∀ {p q : Path}, pfx p q = true ↔ ∃ r, q = p ++ r
  | [], q => by simp [pfx]
  | a :: p, [] => by simp [pfx]
  | a :: p, b :: q => by
      simp only [pfx]
      by_cases hab : a = b
      · subst hab
        simp only [if_pos rfl]
        constructor
        · intro h
          obtain ⟨r, hr⟩ := pfx_iff.mp h
          exact ⟨r, by simp [hr]⟩
        · rintro ⟨r, hr⟩
          injection hr with h1 h2
          exact pfx_iff.mpr ⟨r, h2⟩
      · simp only [if_neg hab]
        constructor
        · intro h
          exact Bool.noConfusion h
        · rintro ⟨r, hr⟩
          injection hr with h1 h2
          exact absurd h1.symm hab

theorem pfx_append (p r : Path) : pfx p (p ++ r) = true :=
  pfx_iff.mpr ⟨r, rfl⟩

theorem pfx_refl (p : Path) : pfx p p = true := by
  simpa using pfx_append p []

theorem drop_append_self {α : Type} (p r : List α) : (p ++ r).drop p.length = r := by
  simp

mutual

/-- Lookup of a key path in a node tree (the semantics of a trie). -/
def look : Node → Path → Option Bytes
  | .empty, _ => none
  | .leaf p v, q => if q = p then some v else none
  | .ext p c, q => if pfx p q then look c (q.drop p.length) else none
  | .branch _ v, [] => v
  | .branch cs _, i :: q => lookChildren cs i.1 q

def lookChildren : List Node → Nat → Path → Option Bytes
  | [], _, _ => none
  | c :: _, 0, q => look c q
  | _ :: cs, i + 1, q => lookChildren cs i q

end

theorem lookChildren_eq_getD :
    ∀ (cs : List Node) (i : Nat) (q : Path),
      lookChildren cs i q = look (cs.getD i .empty) q := by
  intro cs
  induction cs with
  | nil => intro i q; cases i <;> simp [lookChildren, look]
  | cons c cs ih =>
      intro i q
      cases i with
      | zero => simp [lookChildren]
      | succ j => simpa [lookChildren] using ih j q

/-- Number of non-empty children in a branch slot list. -/
def countNE (cs : List Node) : Nat := (cs.filter (fun c => !isEmptyN c)).length

mutual

/-- Modelled from the spec: the canonicalization invariants of nodes (section
3 of the design): an extension has a non-empty path and a branch child; a
branch has 16 slots and at least two non-empty children, or exactly one
non-empty child plus a value. -/
def canon : Node → Bool
  | .empty => true
  | .leaf _ _ => true
  | .ext p c =>
      (match c with
       | .branch _ _ => true
       | _ => false) && (!p.isEmpty) && canon c
  | .branch cs v =>
      decide (cs.length = 16) &&
      (decide (2 ≤ countNE cs) || (decide (countNE cs = 1) && v.isSome)) &&
      canonL cs

def canonL : List Node → Bool
  | [] => true
  | c :: cs => canon c && canonL cs

end

theorem canonL_iff {cs : List Node} : canonL cs = true ↔ ∀ c ∈ cs, canon c = true := by
  induction cs with
  | nil => simp [canonL]
  | cons c cs ih => simp [canonL, ih]

theorem canon_branch_iff {cs : List Node} {v : Option Bytes} :
    canon (.branch cs v) = true ↔
      cs.length = 16 ∧ (2 ≤ countNE cs ∨ (countNE cs = 1 ∧ v.isSome = true)) ∧
      ∀ c ∈ cs, canon c = true := by
  simp [canon, canonL_iff, and_assoc]

theorem canon_ext_iff {p : Path} {c : Node} :
    canon (.ext p c) = true ↔
      (∃ cs v, c = .branch cs v) ∧ p ≠ [] ∧ canon c = true := by
  cases c <;> simp [canon, List.isEmpty_iff]

/-- An entry: a nibble path paired with a value. -/
abbrev Entry := Path × Bytes

/-- Longest common prefix of two paths. -/
def lcp : Path → Path → Path
  | a :: p, b :: q => if a = b then a :: lcp p q else []
  | _, _ => []

/-- Longest common prefix of all keys of an entry list. -/
def lcpAll : List Entry → Path
  | [] => []
  | [e] => e.1
  | e :: es => lcp e.1 (lcpAll es)

/-- First-match association lookup over an entry list. -/
def lookupKey : List Entry → Path → Option Bytes
  | [], _ => none
  | e :: es, k => if k = e.1 then some e.2 else lookupKey es k

/-- Entries whose key starts with nibble `i`, with that nibble removed. -/
def group (i : Nib) (es : List Entry) : List Entry :=
  es.filterMap (fun e =>
    match e.1 with
    | [] => none
    | a :: t => if a = i then some (t, e.2) else none)

/-- Entries with the first `n` nibbles of every key removed. -/
def strip (n : Nat) (es : List Entry) : List Entry :=
  es.map (fun e => (e.1.drop n, e.2))

/-- Termination measure for the builder: total key length plus entry count. -/
def entMeasure (es : List Entry) : Nat := (es.map (fun e => e.1.length)).sum + es.length

/-- Total key length of an entry list. -/
def pathSum (es : List Entry) : Nat := (es.map (fun e => e.1.length)).sum

/-- Modelled from the spec: the Builder (section 4.2).  From a list of
entries with unique keys it produces the unique canonical tree: the empty
node for zero entries, a leaf for one, and otherwise an optional extension
over the longest common prefix of all keys followed by a branch whose slot
`i` is built from the entries continuing with nibble `i`.  The fuel
argument makes the recursion structural; `build` supplies enough fuel. -/
def buildF : Nat → List Entry → Node
  | _, [] => .empty
  | _, [(p, v)] => .leaf p v
  | 0, _ :: _ :: _ => .empty
  | fuel + 1, e1 :: e2 :: es =>
      let l := lcpAll (e1 :: e2 :: es)
      let stripped := strip l.length (e1 :: e2 :: es)
      let v? := lookupKey stripped []
      let cs := List.ofFn (fun i : Nib => buildF fuel (group i stripped))
      if l.isEmpty then .branch cs v? else .ext l (.branch cs v?)

/-- The Builder over a list of unique-key entries. -/
def build (es : List Entry) : Node := buildF (entMeasure es) es

theorem lcp_pfx_left : ∀ a b : Path, ∃ r, a = lcp a b ++ r
  | [], b => ⟨[], by simp [lcp]⟩
  | x :: a, [] => ⟨x :: a, by simp [lcp]⟩
  | x :: a, y :: b => by
      by_cases hxy : x = y
      · obtain ⟨r, hr⟩ := lcp_pfx_left a b
        exact ⟨r, by simp [lcp, hxy, ← hr]⟩
      · exact ⟨x :: a, by simp [lcp, hxy]⟩

theorem lcp_pfx_right : ∀ a b : Path, ∃ r, b = lcp a b ++ r
  | [], b => ⟨b, by simp [lcp]⟩
  | x :: a, [] => ⟨[], by simp [lcp]⟩
  | x :: a, y :: b => by
      by_cases hxy : x = y
      · obtain ⟨r, hr⟩ := lcp_pfx_right a b
        subst hxy
        exact ⟨r, by simp [lcp, ← hr]⟩
      · exact ⟨y :: b, by simp [lcp, hxy]⟩

theorem lcp_longest : ∀ (p a b : Path), (∃ r, a = p ++ r) → (∃ s, b = p ++ s) →
    ∃ t, lcp a b = p ++ t
  | [], a, b, _, _ => ⟨lcp a b, by simp⟩
  | x :: p, _, _, ⟨r, rfl⟩, ⟨s, rfl⟩ => by
      obtain ⟨t, ht⟩ := lcp_longest p (p ++ r) (p ++ s) ⟨r, rfl⟩ ⟨s, rfl⟩
      exact ⟨t, by simp [lcp, ht]⟩

theorem lcp_append : ∀ (l a b : Path), lcp (l ++ a) (l ++ b) = l ++ lcp a b
  | [], a, b => rfl
  | x :: l, a, b => by simp [lcp, lcp_append l a b]

theorem lcpAll_pfx : ∀ (es : List Entry), ∀ e ∈ es, ∃ r, e.1 = lcpAll es ++ r
  | [], e, he => absurd he (List.not_mem_nil e)
  | [e0], e, he => by
      rcases List.mem_singleton.mp he with rfl
      exact ⟨[], by simp [lcpAll]⟩
  | e0 :: e1 :: es, e, he => by
      have hunf : lcpAll (e0 :: e1 :: es) = lcp e0.1 (lcpAll (e1 :: es)) := rfl
      rcases List.mem_cons.mp he with rfl | he
      · obtain ⟨r, hr⟩ := lcp_pfx_left e.1 (lcpAll (e1 :: es))
        exact ⟨r, by rw [hunf, ← hr]⟩
      · obtain ⟨r, hr⟩ := lcpAll_pfx (e1 :: es) e he
        obtain ⟨s, hs⟩ := lcp_pfx_right e0.1 (lcpAll (e1 :: es))
        refine ⟨s ++ r, ?_⟩
        rw [hunf, hr]
        nth_rewrite 1 [hs]
        rw [List.append_assoc]

theorem lcpAll_longest : ∀ (es : List Entry) (p : Path), es ≠ [] →
    (∀ e ∈ es, ∃ r, e.1 = p ++ r) → ∃ t, lcpAll es = p ++ t
  | [], p, hne, _ => absurd rfl hne
  | [e0], p, _, h => by simpa [lcpAll] using h e0 (List.mem_singleton_self e0)
  | e0 :: e1 :: es, p, _, h => by
      have h0 := h e0 (List.mem_cons_self _ _)
      obtain ⟨t, ht⟩ := lcpAll_longest (e1 :: es) p (by simp)
        (fun e he => h e (List.mem_cons_of_mem _ he))
      have hunf : lcpAll (e0 :: e1 :: es) = lcp e0.1 (lcpAll (e1 :: es)) := rfl
      rw [hunf]
      exact lcp_longest p _ _ h0 ⟨t, ht⟩

theorem strip_cons (n : Nat) (e : Entry) (es : List Entry) :
    strip n (e :: es) = (e.1.drop n, e.2) :: strip n es := rfl

theorem length_strip (n : Nat) (es : List Entry) : (strip n es).length = es.length := by
  simp [strip]

theorem lcpAll_strip : ∀ (es : List Entry) (l : Path), es ≠ [] →
    (∀ e ∈ es, ∃ r, e.1 = l ++ r) → lcpAll es = l ++ lcpAll (strip l.length es)
  | [], l, hne, _ => absurd rfl hne
  | [e0], l, _, h => by
      obtain ⟨r, hr⟩ := h e0 (List.mem_singleton_self e0)
      simp [lcpAll, strip, hr]
  | e0 :: e1 :: es, l, _, h => by
      obtain ⟨r, hr⟩ := h e0 (List.mem_cons_self _ _)
      have htail := lcpAll_strip (e1 :: es) l (by simp)
        (fun e he => h e (List.mem_cons_of_mem _ he))
      have hunf : lcpAll (e0 :: e1 :: es) = lcp e0.1 (lcpAll (e1 :: es)) := rfl
      have hunf2 : lcpAll (strip l.length (e0 :: e1 :: es)) =
          lcp (e0.1.drop l.length) (lcpAll (strip l.length (e1 :: es))) := by
        rw [strip_cons, strip_cons]
        rfl
      rw [hunf, hunf2, hr, htail]
      rw [drop_append_self]
      exact lcp_append l r (lcpAll (strip l.length (e1 :: es)))

theorem lcpAll_strip_self (es : List Entry) (hne : es ≠ []) :
    lcpAll (strip (lcpAll es).length es) = [] := by
  have h := lcpAll_strip es (lcpAll es) hne (lcpAll_pfx es)
  have hlen := congrArg List.length h
  simp only [List.length_append] at hlen
  have : (lcpAll (strip (lcpAll es).length es)).length = 0 := by omega
  exact List.length_eq_zero.mp this

theorem lookupKey_strip : ∀ (es : List Entry) (l q : Path),
    (∀ e ∈ es, ∃ r, e.1 = l ++ r) →
    lookupKey (strip l.length es) q = lookupKey es (l ++ q)
  | [], l, q, _ => rfl
  | e :: es, l, q, h => by
      obtain ⟨r, hr⟩ := h e (List.mem_cons_self _ _)
      have htail := lookupKey_strip es l q (fun e' he' => h e' (List.mem_cons_of_mem _ he'))
      rw [strip_cons]
      simp only [lookupKey, hr, drop_append_self]
      by_cases hq : q = r
      · simp [hq]
      · have : ¬ (l ++ q = l ++ r) := by
          intro hc
          exact hq (List.append_cancel_left hc)
        simp [hq, this, htail]

theorem lookupKey_group : ∀ (es : List Entry) (i : Nib) (t : Path),
    lookupKey (group i es) t = lookupKey es (i :: t)
  | [], _, _ => rfl
  | e :: es, i, t => by
      have htail := lookupKey_group es i t
      match he : e.1 with
      | [] =>
          have : group i (e :: es) = group i es := by
            simp [group, List.filterMap_cons, he]
          rw [this, htail]
          have : (i :: t : Path) ≠ e.1 := by rw [he]; simp
          simp [lookupKey, this]
      | a :: s =>
          by_cases hai : a = i
          · subst hai
            have : group a (e :: es) = (s, e.2) :: group a es := by
              simp [group, List.filterMap_cons, he]
            rw [this]
            simp only [lookupKey, htail, he]
            by_cases hts : t = s
            · simp [hts]
            · have h2 : ¬ (a :: t : Path) = a :: s := by simp [hts]
              simp [hts, h2]
          · have hgr : group i (e :: es) = group i es := by
              simp [group, List.filterMap_cons, he, hai]
            rw [hgr, htail]
            have hne : ¬ (i :: t : Path) = e.1 := by
              rw [he]
              intro hc
              injection hc with h1 _
              exact hai h1.symm
            simp [lookupKey, hne]

theorem lookupKey_none_of_not_pfx (es : List Entry) (l q : Path)
    (h : ∀ e ∈ es, ∃ r, e.1 = l ++ r) (hp : pfx l q = false) :
    lookupKey es q = none := by
  induction es with
  | nil => rfl
  | cons e es ih =>
      obtain ⟨r, hr⟩ := h e (List.mem_cons_self _ _)
      have hne : q ≠ e.1 := by
        intro hc
        rw [hc, hr] at hp
        rw [pfx_append] at hp
        cases hp
      simp [lookupKey, hne]
      exact ih (fun e' he' => h e' (List.mem_cons_of_mem _ he'))

theorem lookupKey_eq_none_iff (es : List Entry) (k : Path) :
    lookupKey es k = none ↔ k ∉ es.map Prod.fst := by
  induction es with
  | nil => simp [lookupKey]
  | cons e es ih =>
      by_cases hk : k = e.1
      · simp [lookupKey, hk]
      · simp [lookupKey, hk, ih, fun h : e.1 = k => hk h.symm]

theorem lookupKey_isSome_of_mem {es : List Entry} {e : Entry} (he : e ∈ es) :
    (lookupKey es e.1).isSome = true := by
  rcases h : lookupKey es e.1 with _ | v
  · rw [lookupKey_eq_none_iff] at h
    exact absurd (List.mem_map_of_mem Prod.fst he) h
  · rfl

theorem lookupKey_mem {es : List Entry} {k : Path} {v : Bytes}
    (h : lookupKey es k = some v) : (k, v) ∈ es := by
  induction es with
  | nil => cases h
  | cons e es ih =>
      by_cases hk : k = e.1
      · rw [lookupKey, if_pos hk] at h
        injection h with h
        subst hk
        subst h
        exact List.mem_cons_self _ _
      · rw [lookupKey, if_neg hk] at h
        exact List.mem_cons_of_mem _ (ih h)

theorem lookupKey_of_mem {es : List Entry} {k : Path} {v : Bytes}
    (hnd : (es.map Prod.fst).Nodup) (h : (k, v) ∈ es) : lookupKey es k = some v := by
  induction es with
  | nil => cases h
  | cons e es ih =>
      rw [List.map_cons, List.nodup_cons] at hnd
      rcases List.mem_cons.mp h with rfl | h
      · simp [lookupKey]
      · have hk : k ≠ e.1 := by
          intro hc
          exact hnd.1 (hc ▸ List.mem_map_of_mem Prod.fst h)
        rw [lookupKey, if_neg hk]
        exact ih hnd.2 h

theorem nodupKeys_strip {es : List Entry} {l : Path}
    (hnd : (es.map Prod.fst).Nodup) (h : ∀ e ∈ es, ∃ r, e.1 = l ++ r) :
    ((strip l.length es).map Prod.fst).Nodup := by
  induction es with
  | nil => simp [strip]
  | cons e es ih =>
      rw [List.map_cons, List.nodup_cons] at hnd
      rw [strip_cons, List.map_cons, List.nodup_cons]
      obtain ⟨r, hr⟩ := h e (List.mem_cons_self _ _)
      constructor
      · intro hmem
        simp only [strip, List.map_map] at hmem
        obtain ⟨e'', he'', heq⟩ := List.mem_map.mp hmem
        obtain ⟨r', hr'⟩ := h e'' (List.mem_cons_of_mem _ he'')
        simp only [Function.comp] at heq
        rw [hr', drop_append_self, hr, drop_append_self] at heq
        have hkey : e''.1 = e.1 := by rw [hr', hr, heq]
        exact hnd.1 (hkey ▸ List.mem_map_of_mem Prod.fst he'')
      · exact ih hnd.2 (fun e' he' => h e' (List.mem_cons_of_mem _ he'))

theorem group_f_eq (i : Nib) (e : Entry) (t : Path) (v : Bytes) :
    (match e.1 with
     | [] => none
     | a :: s => if a = i then some ((s, e.2) : Entry) else none) = some ((t, v) : Entry)
    ↔ e = (i :: t, v) := by
  obtain ⟨p, w⟩ := e
  match p with
  | [] =>
      constructor
      · intro h
        exact Option.noConfusion h
      · intro h
        injection h with h1 _
        cases h1
  | a :: s =>
      by_cases hai : a = i
      · subst hai
        simp only [if_pos rfl]
        constructor
        · intro h
          injection h with h
          injection h with h1 h2
          rw [h1, h2]
        · intro h
          injection h with h1 h2
          injection h1 with _ h3
          rw [h2, h3]
          simp
      · simp only [if_neg hai]
        constructor
        · intro h
          exact Option.noConfusion h
        · intro h
          injection h with h1 _
          injection h1 with h3 _
          exact absurd h3 hai

theorem mem_group_iff {es : List Entry} {i : Nib} {t : Path} {v : Bytes} :
    (t, v) ∈ group i es ↔ (i :: t, v) ∈ es := by
  unfold group
  rw [List.mem_filterMap]
  constructor
  · rintro ⟨e, he, hfe⟩
    have heq := (group_f_eq i e t v).mp hfe
    rw [← heq]
    exact he
  · intro h
    exact ⟨(i :: t, v), h, (group_f_eq i (i :: t, v) t v).mpr rfl⟩

theorem mem_keys_group {es : List Entry} {i : Nib} {t : Path}
    (h : t ∈ (group i es).map Prod.fst) : (i :: t) ∈ es.map Prod.fst := by
  obtain ⟨e, hm, heq⟩ := List.mem_map.mp h
  obtain ⟨t', v⟩ := e
  subst heq
  exact List.mem_map.mpr ⟨(i :: t', v), mem_group_iff.mp hm, rfl⟩

theorem nodupKeys_group {es : List Entry} {i : Nib}
    (hnd : (es.map Prod.fst).Nodup) : ((group i es).map Prod.fst).Nodup := by
  induction es with
  | nil => simp [group]
  | cons e es ih =>
      rw [List.map_cons, List.nodup_cons] at hnd
      obtain ⟨p, w⟩ := e
      match p with
      | [] =>
          have hg : group i ((([] : Path), w) :: es) = group i es := by
            simp [group, List.filterMap_cons]
          rw [hg]
          exact ih hnd.2
      | a :: s =>
          by_cases hai : a = i
          · subst hai
            have hg : group a (((a :: s : Path), w) :: es) = (s, w) :: group a es := by
              simp [group, List.filterMap_cons]
            rw [hg, List.map_cons, List.nodup_cons]
            refine ⟨?_, ih hnd.2⟩
            intro hmem
            exact hnd.1 (mem_keys_group hmem)
          · have hg : group i (((a :: s : Path), w) :: es) = group i es := by
              simp [group, List.filterMap_cons, hai]
            rw [hg]
            exact ih hnd.2

theorem entMeasure_nil : entMeasure [] = 0 := rfl

theorem entMeasure_cons (e : Entry) (es : List Entry) :
    entMeasure (e :: es) = e.1.length + 1 + entMeasure es := by
  simp [entMeasure]
  omega

theorem entMeasure_group_le (i : Nib) : ∀ es : List Entry,
    entMeasure (group i es) ≤ pathSum es
  | [] => by simp [group, entMeasure, pathSum]
  | e :: es => by
      have htail := entMeasure_group_le i es
      have hps : pathSum (e :: es) = e.1.length + pathSum es := by
        simp [pathSum]
      match he : e.1 with
      | [] =>
          have hg : group i (e :: es) = group i es := by
            simp [group, List.filterMap_cons, he]
          rw [hg, hps]
          omega
      | a :: s =>
          by_cases hai : a = i
          · subst hai
            have hg : group a (e :: es) = (s, e.2) :: group a es := by
              simp [group, List.filterMap_cons, he]
            rw [hg, entMeasure_cons, hps, he]
            simp only [List.length_cons]
            omega
          · have hg : group i (e :: es) = group i es := by
              simp [group, List.filterMap_cons, he, hai]
            rw [hg, hps]
            omega

theorem pathSum_strip_le (n : Nat) : ∀ es : List Entry, pathSum (strip n es) ≤ pathSum es
  | [] => le_refl _
  | e :: es => by
      have := pathSum_strip_le n es
      have h1 : (e.1.drop n).length ≤ e.1.length := by
        rw [List.length_drop]
        omega
      simp only [strip_cons, pathSum, List.map_cons, List.sum_cons] at *
      omega

theorem pathSum_lt_entMeasure {es : List Entry} (h : es ≠ []) :
    pathSum es < entMeasure es := by
  have : 1 ≤ es.length := List.length_pos.mpr h
  simp [entMeasure, pathSum]
  omega

theorem countNE_cons (c : Node) (cs : List Node) :
    countNE (c :: cs) = (if isEmptyN c = true then 0 else 1) + countNE cs := by
  unfold countNE
  rw [List.filter_cons]
  by_cases h : isEmptyN c
  · simp [h]
  · simp [h]
    omega

theorem one_le_countNE {cs : List Node} {j : Nat} (hj : j < cs.length)
    (h : isEmptyN (cs.getD j .empty) = false) : 1 ≤ countNE cs := by
  have hmem : cs.getD j .empty ∈ cs := by
    rw [List.getD_eq_getElem _ _ hj]
    exact List.getElem_mem hj
  have hf : cs.getD j .empty ∈ cs.filter (fun c => !isEmptyN c) :=
    List.mem_filter.mpr ⟨hmem, by rw [h]; rfl⟩
  have := List.length_pos.mpr (List.ne_nil_of_mem hf)
  unfold countNE
  omega

theorem two_le_countNE : ∀ (cs : List Node) (i j : Nat), i < j → j < cs.length →
    isEmptyN (cs.getD i .empty) = false → isEmptyN (cs.getD j .empty) = false →
    2 ≤ countNE cs
  | [], _, j, _, hj, _, _ => by simp at hj
  | c :: cs, 0, j, hij, hj, hi', hj' => by
      obtain ⟨j', rfl⟩ : ∃ j', j = j' + 1 := ⟨j - 1, by omega⟩
      rw [List.getD_cons_zero] at hi'
      rw [List.getD_cons_succ] at hj'
      have hjlt : j' < cs.length := by
        simp only [List.length_cons] at hj
        omega
      have h1 : 1 ≤ countNE cs := one_le_countNE hjlt hj'
      rw [countNE_cons, hi']
      have hone : (if (false = true) then 0 else 1) = 1 := by simp
      rw [hone]
      omega
  | c :: cs, i + 1, j, hij, hj, hi', hj' => by
      obtain ⟨j', rfl⟩ : ∃ j', j = j' + 1 := ⟨j - 1, by omega⟩
      rw [List.getD_cons_succ] at hi' hj'
      have hjlt : j' < cs.length := by
        simp only [List.length_cons] at hj
        omega
      have h2 : 2 ≤ countNE cs := two_le_countNE cs i j' (by omega) hjlt hi' hj'
      rw [countNE_cons]
      by_cases hc : isEmptyN c = true
      · rw [if_pos hc]
        omega
      · rw [if_neg hc]
        omega

theorem getD_ofFn (f : Nib → Node) (i : Nib) (d : Node) :
    (List.ofFn f).getD i.1 d = f i := by
  have hlen : i.1 < (List.ofFn f).length := by
    rw [List.length_ofFn]
    exact i.2
  rw [List.getD_eq_getElem _ _ hlen, List.getElem_ofFn]

theorem two_le_countNE_ofFn {f : Nib → Node} {a b : Nib} (hab : a ≠ b)
    (ha : isEmptyN (f a) = false) (hb : isEmptyN (f b) = false) :
    2 ≤ countNE (List.ofFn f) := by
  have hlen : (List.ofFn f).length = 16 := List.length_ofFn f
  have ha' : isEmptyN ((List.ofFn f).getD a.1 .empty) = false := by
    rw [getD_ofFn]
    exact ha
  have hb' : isEmptyN ((List.ofFn f).getD b.1 .empty) = false := by
    rw [getD_ofFn]
    exact hb
  rcases Nat.lt_trichotomy a.1 b.1 with h | h | h
  · exact two_le_countNE _ a.1 b.1 h (by rw [hlen]; exact b.2) ha' hb'
  · exact absurd (Fin.ext h) hab
  · exact two_le_countNE _ b.1 a.1 h (by rw [hlen]; exact a.2) hb' ha'

theorem buildF_cons2 (fuel : Nat) (e1 e2 : Entry) (es : List Entry) :
    buildF (fuel + 1) (e1 :: e2 :: es) =
      (if (lcpAll (e1 :: e2 :: es)).isEmpty
       then Node.branch (List.ofFn (fun i : Nib =>
              buildF fuel (group i (strip (lcpAll (e1 :: e2 :: es)).length (e1 :: e2 :: es)))))
            (lookupKey (strip (lcpAll (e1 :: e2 :: es)).length (e1 :: e2 :: es)) [])
       else Node.ext (lcpAll (e1 :: e2 :: es))
            (Node.branch (List.ofFn (fun i : Nib =>
              buildF fuel (group i (strip (lcpAll (e1 :: e2 :: es)).length (e1 :: e2 :: es)))))
            (lookupKey (strip (lcpAll (e1 :: e2 :: es)).length (e1 :: e2 :: es)) []))) := rfl

theorem buildF_master : ∀ (fuel : Nat) (es : List Entry), entMeasure es ≤ fuel →
    (es.map Prod.fst).Nodup →
    canon (buildF fuel es) = true ∧
    (∀ q, look (buildF fuel es) q = lookupKey es q) ∧
    (buildF fuel es = .empty ↔ es = []) := by
  intro fuel
  induction fuel with
  | zero =>
      intro es hm _
      match es with
      | [] => exact ⟨rfl, fun q => rfl, by simp [buildF]⟩
      | e :: es' =>
          rw [entMeasure_cons] at hm
          exact absurd hm (by omega)
  | succ fuel ih =>
      intro es hm hnd
      match es with
      | [] => exact ⟨rfl, fun q => rfl, by simp [buildF]⟩
      | [(p, v)] =>
          refine ⟨rfl, fun q => ?_, by simp [buildF]⟩
          simp [buildF, look, lookupKey]
      | e1 :: e2 :: es' =>
          rw [buildF_cons2]
          set l := lcpAll (e1 :: e2 :: es') with hldef
          set S := strip l.length (e1 :: e2 :: es') with hSdef
          set f := fun i : Nib => buildF fuel (group i S) with hfdef
          set CS := List.ofFn f with hCSdef
          set V := lookupKey S [] with hVdef
          have hLne : (e1 :: e2 :: es' : List Entry) ≠ [] := by simp
          have hpfxL : ∀ e ∈ (e1 :: e2 :: es' : List Entry), ∃ r, e.1 = l ++ r :=
            lcpAll_pfx (e1 :: e2 :: es')
          have hSkeys : (S.map Prod.fst).Nodup := nodupKeys_strip hnd hpfxL
          have hSlen : 2 ≤ S.length := by
            rw [hSdef, length_strip]
            simp
          have hSne : S ≠ [] := by
            intro hc
            rw [hc] at hSlen
            simp at hSlen
          have hmeas : ∀ i : Nib, entMeasure (group i S) ≤ fuel := by
            intro i
            have h1 := entMeasure_group_le i S
            have h2 : pathSum S ≤ pathSum (e1 :: e2 :: es') := by
              rw [hSdef]
              exact pathSum_strip_le l.length _
            have h3 := pathSum_lt_entMeasure hLne
            omega
          have hIH : ∀ i : Nib, canon (buildF fuel (group i S)) = true ∧
              (∀ q, look (buildF fuel (group i S)) q = lookupKey (group i S) q) ∧
              (buildF fuel (group i S) = .empty ↔ group i S = []) :=
            fun i => ih (group i S) (hmeas i) (nodupKeys_group hSkeys)
          have hlcpS : lcpAll S = [] := by
            rw [hSdef, hldef]
            exact lcpAll_strip_self _ hLne
          have hfne : ∀ i : Nib, group i S ≠ [] → isEmptyN (f i) = false := by
            intro i hg
            rcases hb : isEmptyN (f i) with _ | _
            · rfl
            · rw [isEmptyN_iff] at hb
              rw [hfdef] at hb
              exact absurd ((hIH i).2.2.mp hb) hg
          obtain ⟨s1, S1, hS1⟩ := List.exists_cons_of_ne_nil hSne
          have hS1ne : S1 ≠ [] := by
            intro hc
            rw [hS1, hc] at hSlen
            simp at hSlen
          obtain ⟨s2, S2, hS2⟩ := List.exists_cons_of_ne_nil hS1ne
          have hS12 : S = s1 :: s2 :: S2 := by rw [hS1, hS2]
          have hgroup_of_key : ∀ (e : Entry) (a : Nib) (t : Path), e ∈ S → e.1 = a :: t →
              group a S ≠ [] := by
            intro e a t heS hat
            intro hg
            have hmem : (t, e.2) ∈ group a S := by
              apply mem_group_iff.mpr
              have : e = (a :: t, e.2) := by
                rw [← hat]
              rw [← this]
              exact heS
            rw [hg] at hmem
            cases hmem
          have hcount : 2 ≤ countNE CS ∨ (countNE CS = 1 ∧ V.isSome = true) := by
            by_cases hemp : ∃ w, (([] : Path), w) ∈ S
            · obtain ⟨w, hw⟩ := hemp
              have hV : V.isSome = true := by
                rw [hVdef]
                exact lookupKey_isSome_of_mem (e := (([] : Path), w)) hw
              have hex : ∃ e, e ∈ S ∧ e.1 ≠ [] := by
                by_cases h1 : s1.1 = []
                · by_cases h2 : s2.1 = []
                  · exfalso
                    rw [hS12] at hSkeys
                    simp only [List.map_cons, List.nodup_cons] at hSkeys
                    apply hSkeys.1
                    rw [h1, ← h2]
                    exact List.mem_cons_self _ _
                  · exact ⟨s2, by rw [hS12]; simp, h2⟩
                · exact ⟨s1, by rw [hS12]; simp, h1⟩
              obtain ⟨e, heS, hene⟩ := hex
              obtain ⟨a, t, hat⟩ : ∃ a t, e.1 = a :: t := by
                rcases he : e.1 with _ | ⟨a, t⟩
                · exact absurd he hene
                · exact ⟨a, t, rfl⟩
              have hga : group a S ≠ [] := hgroup_of_key e a t heS hat
              have hfa : isEmptyN (f a) = false := hfne a hga
              have h1 : 1 ≤ countNE CS := by
                apply one_le_countNE (j := a.1)
                · rw [hCSdef, List.length_ofFn]
                  exact a.2
                · rw [hCSdef, getD_ofFn]
                  exact hfa
              by_cases h2 : 2 ≤ countNE CS
              · exact Or.inl h2
              · exact Or.inr ⟨by omega, hV⟩
            · have hall : ∀ e ∈ S, e.1 ≠ [] := by
                intro e he h0
                apply hemp
                refine ⟨e.2, ?_⟩
                have : (([] : Path), e.2) = e := by
                  rw [← h0]
                rw [this]
                exact he
              have hs1S : s1 ∈ S := by rw [hS12]; exact List.mem_cons_self _ _
              obtain ⟨a, t, hat⟩ : ∃ a t, s1.1 = a :: t := by
                rcases he : s1.1 with _ | ⟨a, t⟩
                · exact absurd he (hall s1 hs1S)
                · exact ⟨a, t, rfl⟩
              by_cases hsame : ∀ e ∈ S, ∃ r, e.1 = [a] ++ r
              · exfalso
                obtain ⟨tt, htt⟩ := lcpAll_longest S [a] hSne hsame
                rw [hlcpS] at htt
                cases htt
              · push_neg at hsame
                obtain ⟨e, heS, hne⟩ := hsame
                obtain ⟨b, s, hbs⟩ : ∃ b s, e.1 = b :: s := by
                  rcases he : e.1 with _ | ⟨b, s⟩
                  · exact absurd he (hall e heS)
                  · exact ⟨b, s, rfl⟩
                have hba : b ≠ a := by
                  intro hc
                  exact hne s (by rw [hbs, hc]; rfl)
                left
                rw [hCSdef]
                apply two_le_countNE_ofFn (a := b) (b := a) hba
                · exact hfne b (hgroup_of_key e b s heS hbs)
                · exact hfne a (hgroup_of_key s1 a t hs1S hat)
          have hbranch_canon : canon (Node.branch CS V) = true := by
            apply canon_branch_iff.mpr
            refine ⟨by rw [hCSdef]; exact List.length_ofFn f, hcount, ?_⟩
            intro c hc
            rw [hCSdef] at hc
            obtain ⟨i, hi⟩ := Set.mem_range.mp ((List.mem_ofFn f c).mp hc)
            rw [← hi, hfdef]
            exact (hIH i).1
          have hlookB : ∀ q, look (Node.branch CS V) q = lookupKey S q := by
            intro q
            match q with
            | [] => rw [hVdef]; rfl
            | i :: t =>
                have h1 : look (Node.branch CS V) (i :: t) = lookChildren CS i.1 t := rfl
                rw [h1, lookChildren_eq_getD, hCSdef, getD_ofFn, hfdef]
                rw [(hIH i).2.1 t]
                exact lookupKey_group S i t
          have hbranch_ne : Node.branch CS V ≠ Node.empty := fun h => Node.noConfusion h
          by_cases hlE : l.isEmpty
          · rw [if_pos hlE]
            have hl0 : l = [] := by
              rcases l with _ | ⟨x, xs⟩
              · rfl
              · cases hlE
            refine ⟨hbranch_canon, ?_, ?_⟩
            · intro q
              rw [hlookB q, hSdef]
              have := lookupKey_strip (e1 :: e2 :: es') l q hpfxL
              rw [hl0] at this ⊢
              simpa using this
            · simp [hbranch_ne]
          · rw [if_neg hlE]
            have hlne : l ≠ [] := by
              intro hc
              rw [hc] at hlE
              exact hlE rfl
            refine ⟨?_, ?_, ?_⟩
            · apply canon_ext_iff.mpr
              exact ⟨⟨CS, V, rfl⟩, hlne, hbranch_canon⟩
            · intro q
              have hunf : look (Node.ext l (Node.branch CS V)) q =
                  if pfx l q then look (Node.branch CS V) (q.drop l.length) else none := rfl
              rw [hunf]
              by_cases hp : pfx l q
              · obtain ⟨r, rfl⟩ := pfx_iff.mp hp
                rw [if_pos hp, drop_append_self, hlookB r, hSdef]
                exact lookupKey_strip (e1 :: e2 :: es') l r hpfxL
              · rw [if_neg hp]
                refine (lookupKey_none_of_not_pfx (e1 :: e2 :: es') l q hpfxL ?_).symm
                rcases hb : pfx l q with _ | _
                · rfl
                · exact absurd hb hp
            · constructor
              · intro h
                exact absurd h (fun h => Node.noConfusion h)
              · intro h
                cases h

theorem canon_build {es : List Entry} (hnd : (es.map Prod.fst).Nodup) :
    canon (build es) = true :=
  (buildF_master (entMeasure es) es (le_refl _) hnd).1

theorem look_build {es : List Entry} (hnd : (es.map Prod.fst).Nodup) (q : Path) :
    look (build es) q = lookupKey es q :=
  (buildF_master (entMeasure es) es (le_refl _) hnd).2.1 q

theorem build_eq_empty_iff {es : List Entry} (hnd : (es.map Prod.fst).Nodup) :
    build es = .empty ↔ es = [] :=
  (buildF_master (entMeasure es) es (le_refl _) hnd).2.2

theorem look_branch_cons (cs : List Node) (v : Option Bytes) (i : Nib) (q : Path) :
    look (.branch cs v) (i :: q) = look (cs.getD i.1 .empty) q := by
  have h1 : look (.branch cs v) (i :: q) = lookChildren cs i.1 q := rfl
  rw [h1, lookChildren_eq_getD]

theorem exists_one_of_countNE : ∀ (cs : List Node), 1 ≤ countNE cs →
    ∃ j, j < cs.length ∧ isEmptyN (cs.getD j .empty) = false
  | [], h => by simp [countNE] at h
  | c :: cs, h => by
      by_cases hc : isEmptyN c = true
      · rw [countNE_cons, if_pos hc] at h
        obtain ⟨j, hj, hne⟩ := exists_one_of_countNE cs (by omega)
        exact ⟨j + 1, by simp [List.length_cons]; omega, by rwa [List.getD_cons_succ]⟩
      · exact ⟨0, by simp, by rw [List.getD_cons_zero]; simpa using hc⟩

theorem exists_two_of_countNE : ∀ (cs : List Node), 2 ≤ countNE cs →
    ∃ i j, i < j ∧ j < cs.length ∧
      isEmptyN (cs.getD i .empty) = false ∧ isEmptyN (cs.getD j .empty) = false
  | [], h => by simp [countNE] at h
  | c :: cs, h => by
      by_cases hc : isEmptyN c = true
      · rw [countNE_cons, if_pos hc] at h
        obtain ⟨i, j, hij, hj, hi1, hj1⟩ := exists_two_of_countNE cs (by omega)
        refine ⟨i + 1, j + 1, by omega, by simp [List.length_cons]; omega, ?_, ?_⟩
        · rwa [List.getD_cons_succ]
        · rwa [List.getD_cons_succ]
      · rw [countNE_cons, if_neg hc] at h
        obtain ⟨j, hj, hne⟩ := exists_one_of_countNE cs (by omega)
        refine ⟨0, j + 1, by omega, by simp [List.length_cons]; omega, ?_, ?_⟩
        · rw [List.getD_cons_zero]
          simpa using hc
        · rwa [List.getD_cons_succ]

theorem canon_branch_child {cs : List Node} {v : Option Bytes}
    (hc : canon (.branch cs v) = true) {j : Nat} (hj : j < cs.length) :
    canon (cs.getD j .empty) = true := by
  rw [List.getD_eq_getElem _ _ hj]
  exact (canon_branch_iff.mp hc).2.2 _ (List.getElem_mem hj)

theorem look_nonempty_fuel : ∀ (n : Nat) (U : Node), ht U ≤ n → canon U = true →
    U ≠ .empty → ∃ q w, look U q = some w := by
  intro n
  induction n with
  | zero =>
      intro U hht hc hne
      match U with
      | .empty => exact absurd rfl hne
      | .leaf p v => exact ⟨p, v, by simp [look]⟩
      | .ext p c => simp [ht] at hht
      | .branch cs v => simp [ht] at hht
  | succ n ihn =>
      intro U hht hc hne
      match U with
      | .empty => exact absurd rfl hne
      | .leaf p v => exact ⟨p, v, by simp [look]⟩
      | .ext p c =>
          obtain ⟨⟨cs, w, rfl⟩, hpne, hcc⟩ := canon_ext_iff.mp hc
          obtain ⟨q, w', hq⟩ := ihn (.branch cs w) (by simp [ht] at hht ⊢; omega) hcc
            (fun h => Node.noConfusion h)
          refine ⟨p ++ q, w', ?_⟩
          have hunf : look (Node.ext p (.branch cs w)) (p ++ q) =
              if pfx p (p ++ q) then look (.branch cs w) ((p ++ q).drop p.length) else none := rfl
          rw [hunf, if_pos (pfx_append p q), drop_append_self]
          exact hq
      | .branch cs v =>
          match v with
          | some w => exact ⟨[], w, rfl⟩
          | none =>
              have hiff := canon_branch_iff.mp hc
              have hcount : 1 ≤ countNE cs := by
                rcases hiff.2.1 with h | h
                · omega
                · simp at h
              obtain ⟨j, hj, hne'⟩ := exists_one_of_countNE cs hcount
              have hjlen : j < 16 := by rw [← hiff.1]; exact hj
              have hchne : cs.getD j .empty ≠ .empty := by
                intro hcon
                rw [hcon] at hne'
                simp [isEmptyN] at hne'
              have hht' : ht (cs.getD j .empty) ≤ n := by
                have h1 : ht (cs.getD j .empty) ≤ htL cs := by
                  rw [List.getD_eq_getElem _ _ hj]
                  exact ht_mem_le (List.getElem_mem hj)
                simp [ht] at hht
                omega
              obtain ⟨q, w', hq⟩ := ihn _ hht' (canon_branch_child hc hj) hchne
              refine ⟨⟨j, hjlen⟩ :: q, w', ?_⟩
              rw [look_branch_cons]
              exact hq

theorem look_nonempty {U : Node} (hc : canon U = true) (hne : U ≠ .empty) :
    ∃ q w, look U q = some w :=
  look_nonempty_fuel (ht U) U (le_refl _) hc hne

theorem branch_two_keys {cs : List Node} {v : Option Bytes}
    (hc : canon (.branch cs v) = true) :
    ∃ q1 q2, q1 ≠ q2 ∧ (look (.branch cs v) q1).isSome = true ∧
      (look (.branch cs v) q2).isSome = true := by
  have hiff := canon_branch_iff.mp hc
  rcases hiff.2.1 with h2 | ⟨h1, hv⟩
  · obtain ⟨i, j, hij, hj, hi1, hj1⟩ := exists_two_of_countNE cs h2
    have hilen : i < 16 := by
      rw [← hiff.1]
      omega
    have hjlen : j < 16 := by rw [← hiff.1]; exact hj
    have hine : cs.getD i .empty ≠ .empty := by
      intro hcon
      rw [hcon] at hi1
      simp [isEmptyN] at hi1
    have hjne : cs.getD j .empty ≠ .empty := by
      intro hcon
      rw [hcon] at hj1
      simp [isEmptyN] at hj1
    obtain ⟨qi, wi, hqi⟩ := look_nonempty (canon_branch_child hc (by omega)) hine
    obtain ⟨qj, wj, hqj⟩ := look_nonempty (canon_branch_child hc hj) hjne
    refine ⟨⟨i, hilen⟩ :: qi, ⟨j, hjlen⟩ :: qj, ?_, ?_, ?_⟩
    · intro hcon
      injection hcon with hh _
      have : i = j := Fin.mk.injEq .. |>.mp hh |>.symm ▸ rfl
      omega
    · rw [look_branch_cons]
      simp only [hqi]
      rfl
    · rw [look_branch_cons]
      simp only [hqj]
      rfl
  · obtain ⟨w, hw⟩ := Option.isSome_iff_exists.mp hv
    obtain ⟨j, hj, hj1⟩ := exists_one_of_countNE cs (by omega)
    have hjlen : j < 16 := by rw [← hiff.1]; exact hj
    have hjne : cs.getD j .empty ≠ .empty := by
      intro hcon
      rw [hcon] at hj1
      simp [isEmptyN] at hj1
    obtain ⟨qj, wj, hqj⟩ := look_nonempty (canon_branch_child hc hj) hjne
    refine ⟨[], ⟨j, hjlen⟩ :: qj, by simp, ?_, ?_⟩
    · have : look (Node.branch cs v) [] = v := rfl
      rw [this, hw]
      rfl
    · rw [look_branch_cons]
      simp only [hqj]
      rfl

theorem ext_two_keys {p : Path} {c : Node} (hc : canon (.ext p c) = true) :
    ∃ q1 q2, q1 ≠ q2 ∧ (look (.ext p c) q1).isSome = true ∧
      (look (.ext p c) q2).isSome = true := by
  obtain ⟨⟨cs, w, rfl⟩, hpne, hcc⟩ := canon_ext_iff.mp hc
  obtain ⟨q1, q2, hne, h1, h2⟩ := branch_two_keys hcc
  have hunf : ∀ q, look (Node.ext p (.branch cs w)) (p ++ q) = look (.branch cs w) q := by
    intro q
    have : look (Node.ext p (.branch cs w)) (p ++ q) =
        if pfx p (p ++ q) then look (.branch cs w) ((p ++ q).drop p.length) else none := rfl
    rw [this, if_pos (pfx_append p q), drop_append_self]
  refine ⟨p ++ q1, p ++ q2, ?_, ?_, ?_⟩
  · intro hcon
    exact hne (List.append_cancel_left hcon)
  · rw [hunf]
    exact h1
  · rw [hunf]
    exact h2

theorem look_leaf_isSome {p : Path} {v : Bytes} {q : Path}
    (h : (look (.leaf p v) q).isSome = true) : q = p := by
  by_cases hq : q = p
  · exact hq
  · have : look (Node.leaf p v) q = none := by simp [look, hq]
    rw [this] at h
    cases h

theorem branch_key_not_head {cs : List Node} {v : Option Bytes}
    (hc : canon (.branch cs v) = true) (a : Nib) :
    ∃ q, (look (.branch cs v) q).isSome = true ∧ ∀ t, q ≠ a :: t := by
  have hiff := canon_branch_iff.mp hc
  match v with
  | some w => exact ⟨[], by rw [show look (Node.branch cs (some w)) [] = some w from rfl]; rfl,
      fun t h => List.noConfusion h⟩
  | none =>
      have h2 : 2 ≤ countNE cs := by
        rcases hiff.2.1 with h | h
        · exact h
        · simp at h
      obtain ⟨i, j, hij, hj, hi1, hj1⟩ := exists_two_of_countNE cs h2
      have hilen : i < 16 := by rw [← hiff.1]; omega
      have hjlen : j < 16 := by rw [← hiff.1]; exact hj
      by_cases hia : (⟨i, hilen⟩ : Nib) = a
      · have hjne : cs.getD j .empty ≠ .empty := by
          intro hcon
          rw [hcon] at hj1
          simp [isEmptyN] at hj1
        obtain ⟨qj, wj, hqj⟩ := look_nonempty (canon_branch_child hc hj) hjne
        refine ⟨⟨j, hjlen⟩ :: qj, ?_, ?_⟩
        · rw [look_branch_cons]
          simp only [hqj]
          rfl
        · intro t hcon
          injection hcon with hh _
          rw [← hia] at hh
          have : j = i := Fin.mk.injEq .. |>.mp hh
          omega
      · have hine : cs.getD i .empty ≠ .empty := by
          intro hcon
          rw [hcon] at hi1
          simp [isEmptyN] at hi1
        obtain ⟨qi, wi, hqi⟩ := look_nonempty (canon_branch_child hc (by omega)) hine
        refine ⟨⟨i, hilen⟩ :: qi, ?_, ?_⟩
        · rw [look_branch_cons]
          simp only [hqi]
          rfl
        · intro t hcon
          injection hcon with hh _
          exact hia (Fin.ext (congrArg Fin.val hh))

theorem eq_empty_of_look_none {U : Node} (hc : canon U = true)
    (h : ∀ q, look U q = none) : U = .empty := by
  by_cases hne : U = .empty
  · exact hne
  · obtain ⟨q, w, hq⟩ := look_nonempty hc hne
    rw [h q] at hq
    cases hq

theorem eq_leaf_of_look {U : Node} {p : Path} {v : Bytes} (hc : canon U = true)
    (h : ∀ q, look U q = look (.leaf p v) q) : U = .leaf p v := by
  match U with
  | .empty =>
      have := h p
      simp [look] at this
  | .leaf p' v' =>
      have hp' := h p'
      rw [show look (Node.leaf p' v') p' = some v' by simp [look]] at hp'
      by_cases hpp : p' = p
      · subst hpp
        rw [show look (Node.leaf p' v) p' = some v by simp [look]] at hp'
        injection hp' with hv
        rw [hv]
      · rw [show look (Node.leaf p v) p' = none by simp [look, hpp]] at hp'
        cases hp'
  | .ext p' c' =>
      obtain ⟨q1, q2, hne, h1, h2⟩ := ext_two_keys hc
      rw [h q1] at h1
      rw [h q2] at h2
      exact absurd ((look_leaf_isSome h1).trans (look_leaf_isSome h2).symm) hne
  | .branch cs' v' =>
      obtain ⟨q1, q2, hne, h1, h2⟩ := branch_two_keys hc
      rw [h q1] at h1
      rw [h q2] at h2
      exact absurd ((look_leaf_isSome h1).trans (look_leaf_isSome h2).symm) hne

theorem ext_branch_absurd {p : Path} {c : Node} {cs : List Node} {v : Option Bytes}
    (hce : canon (.ext p c) = true) (hcb : canon (.branch cs v) = true)
    (h : ∀ q, look (.ext p c) q = look (.branch cs v) q) : False := by
  obtain ⟨_, hpne, _⟩ := canon_ext_iff.mp hce
  obtain ⟨a, p0, hp⟩ : ∃ a p0, p = a :: p0 := by
    rcases hpp : p with _ | ⟨a, p0⟩
    · exact absurd hpp hpne
    · exact ⟨a, p0, rfl⟩
  obtain ⟨q, hq, hqa⟩ := branch_key_not_head hcb a
  rw [← h q] at hq
  have hpfx : pfx p q = true := by
    rcases hb : pfx p q with _ | _
    · have : look (Node.ext p c) q = none := by
        have hu : look (Node.ext p c) q =
            if pfx p q then look c (q.drop p.length) else none := rfl
        rw [hu, hb]
        rfl
      rw [this] at hq
      cases hq
    · rfl
  obtain ⟨r, hr⟩ := pfx_iff.mp hpfx
  rw [hp] at hr
  exact hqa (p0 ++ r) hr

theorem look_ext_append (p : Path) (c : Node) (q : Path) :
    look (.ext p c) (p ++ q) = look c q := by
  have hu : look (.ext p c) (p ++ q) =
      if pfx p (p ++ q) then look c ((p ++ q).drop p.length) else none := rfl
  rw [hu, if_pos (pfx_append p q), drop_append_self]

theorem ext_no_extend {p : Path} {c : Node} {p' : Path} {c' : Node}
    (hcT : canon (.ext p c) = true)
    (h : ∀ q, look (.ext p c) q = look (.ext p' c') q)
    (x : Nib) (t : Path) : p' ≠ p ++ x :: t := by
  intro hp'
  obtain ⟨⟨cs, w, hcbr⟩, hpne, hcc⟩ := canon_ext_iff.mp hcT
  subst hcbr
  obtain ⟨kq, hkq, hkqa⟩ := branch_key_not_head hcc x
  have hU : (look (.ext p' c') (p ++ kq)).isSome = true := by
    rw [← h, look_ext_append]
    exact hkq
  have hpfx' : pfx p' (p ++ kq) = true := by
    rcases hb : pfx p' (p ++ kq) with _ | _
    · have hnone : look (Node.ext p' c') (p ++ kq) = none := by
        have hu : look (Node.ext p' c') (p ++ kq) =
            if pfx p' (p ++ kq) then look c' ((p ++ kq).drop p'.length) else none := rfl
        rw [hu, hb]
        rfl
      rw [hnone] at hU
      cases hU
    · rfl
  obtain ⟨m2, hm2⟩ := pfx_iff.mp hpfx'
  rw [hp', List.append_assoc] at hm2
  exact hkqa (t ++ m2) (List.append_cancel_left hm2)

theorem list_ext_16 {cs cs' : List Node} (h16 : cs.length = 16) (h16' : cs'.length = 16)
    (h : ∀ i : Nat, i < 16 → cs.getD i .empty = cs'.getD i .empty) : cs = cs' := by
  apply List.ext_getElem (by rw [h16, h16'])
  intro i h1 h2
  have hlt : i < 16 := by rw [← h16]; exact h1
  have := h i hlt
  rwa [List.getD_eq_getElem _ _ h1, List.getD_eq_getElem _ _ h2] at this

theorem canon_look_unique_fuel : ∀ (n : Nat) (T U : Node), ht T ≤ n →
    canon T = true → canon U = true → (∀ q, look T q = look U q) → T = U := by
  intro n
  induction n with
  | zero =>
      intro T U hht hcT hcU h
      match T with
      | .empty => exact (eq_empty_of_look_none hcU (fun q => (h q).symm)).symm
      | .leaf p v => exact (eq_leaf_of_look hcU (fun q => (h q).symm)).symm
      | .ext p c => simp [ht] at hht
      | .branch cs v => simp [ht] at hht
  | succ n ihn =>
      intro T U hht hcT hcU h
      match T with
      | .empty => exact (eq_empty_of_look_none hcU (fun q => (h q).symm)).symm
      | .leaf p v => exact (eq_leaf_of_look hcU (fun q => (h q).symm)).symm
      | .ext p c =>
          match U with
          | .empty =>
              exact absurd (eq_empty_of_look_none hcT (fun q => (h q).trans rfl))
                (fun hh => Node.noConfusion hh)
          | .leaf p' v' =>
              exact absurd (eq_leaf_of_look hcT h) (fun hh => Node.noConfusion hh)
          | .branch cs' v' => exact absurd (ext_branch_absurd hcT hcU h) (fun hf => hf)
          | .ext p' c' =>
              obtain ⟨⟨cs, w, hcbr⟩, hpne, hcc⟩ := canon_ext_iff.mp hcT
              obtain ⟨⟨cs', w', hcbr'⟩, hpne', hcc'⟩ := canon_ext_iff.mp hcU
              have hcne : c ≠ .empty := by
                rw [hcbr]
                exact fun hh => Node.noConfusion hh
              obtain ⟨k1, w1, hk1⟩ := look_nonempty hcc hcne
              have hUk : (look (.ext p' c') (p ++ k1)).isSome = true := by
                rw [← h, look_ext_append, hk1]
                rfl
              have hpfx' : pfx p' (p ++ k1) = true := by
                rcases hb : pfx p' (p ++ k1) with _ | _
                · have hnone : look (Node.ext p' c') (p ++ k1) = none := by
                    have hu : look (Node.ext p' c') (p ++ k1) =
                        if pfx p' (p ++ k1) then look c' ((p ++ k1).drop p'.length)
                        else none := rfl
                    rw [hu, hb]
                    rfl
                  rw [hnone] at hUk
                  cases hUk
                · rfl
              obtain ⟨m, hm⟩ := pfx_iff.mp hpfx'
              have hpp' : p = p' := by
                rcases List.append_eq_append_iff.mp hm.symm with ⟨a2, ha2, _⟩ | ⟨c2, hc2, _⟩
                · rcases ha2eq : a2 with _ | ⟨x, t⟩
                  · rw [ha2eq] at ha2
                    rw [ha2]
                    simp
                  · rw [ha2eq] at ha2
                    exact absurd ha2 (ext_no_extend hcU (fun q => (h q).symm) x t)
                · rcases hc2eq : c2 with _ | ⟨x, t⟩
                  · rw [hc2eq] at hc2
                    rw [hc2]
                    simp
                  · rw [hc2eq] at hc2
                    exact absurd hc2 (ext_no_extend hcT h x t)
              subst hpp'
              have hlc : ∀ q, look c q = look c' q := by
                intro q
                have h1 := h (p ++ q)
                rwa [look_ext_append, look_ext_append] at h1
              have hhtc : ht c ≤ n := by
                simp only [ht] at hht
                omega
              rw [ihn c c' hhtc hcc hcc' hlc]
      | .branch cs v =>
          match U with
          | .empty =>
              exact absurd (eq_empty_of_look_none hcT (fun q => (h q).trans rfl))
                (fun hh => Node.noConfusion hh)
          | .leaf p' v' =>
              exact absurd (eq_leaf_of_look hcT h) (fun hh => Node.noConfusion hh)
          | .ext p' c' =>
              exact absurd (ext_branch_absurd hcU hcT (fun q => (h q).symm)) (fun hf => hf)
          | .branch cs' v' =>
              have hv : v = v' := h []
              have h16 : cs.length = 16 := (canon_branch_iff.mp hcT).1
              have h16' : cs'.length = 16 := (canon_branch_iff.mp hcU).1
              have hchild : ∀ i : Nat, i < 16 → cs.getD i .empty = cs'.getD i .empty := by
                intro i hi
                apply ihn
                · have h1 : ht (cs.getD i .empty) ≤ htL cs := by
                    have hilt : i < cs.length := by rw [h16]; exact hi
                    rw [List.getD_eq_getElem _ _ hilt]
                    exact ht_mem_le (List.getElem_mem hilt)
                  simp only [ht] at hht
                  omega
                · exact canon_branch_child hcT (by rw [h16]; exact hi)
                · exact canon_branch_child hcU (by rw [h16']; exact hi)
                · intro q
                  have hq := h ((⟨i, hi⟩ : Nib) :: q)
                  rwa [look_branch_cons, look_branch_cons] at hq
              rw [hv, list_ext_16 h16 h16' hchild]

theorem canon_look_unique {T U : Node} (hcT : canon T = true) (hcU : canon U = true)
    (h : ∀ q, look T q = look U q) : T = U :=
  canon_look_unique_fuel (ht T) T U (le_refl _) hcT hcU h

/-- A nibble from a natural index (indices are below 16 wherever used). -/
def mkNib (i : Nat) : Nib := ⟨i % 16, Nat.mod_lt _ (by omega)⟩

/-- Modelled from the spec: collapse of an extension whose child was
rewritten by a removal (rows 4-6 of the collapse table in section 4.6):
an extension child merges paths, a leaf child merges into a leaf, a branch
child keeps the extension, an empty child erases the extension. -/
def collapseExt (p : Path) (c : Node) : Node :=
  match c with
  | .empty => .empty
  | .leaf q w => .leaf (p ++ q) w
  | .ext q d => .ext (p ++ q) d
  | .branch _ _ => .ext p c

/-- First non-empty child slot at or after index `i`. -/
def firstNE : Nat → List Node → Option (Nat × Node)
  | _, [] => none
  | i, c :: cs => if isEmptyN c then firstNE (i + 1) cs else some (i, c)

/-- Modelled from the spec: collapse of a branch after a removal (rows 1-3
of the collapse table in section 4.6 plus the degenerate cases): a branch
keeping two children, or one child and a value, stands; a lone child is
merged according to its kind; a bare value becomes a leaf; nothing left
collapses to empty. -/
def collapseBranch (cs : List Node) (v : Option Bytes) : Node :=
  if 2 ≤ countNE cs then .branch cs v
  else
    match v with
    | some w => if countNE cs = 0 then .leaf [] w else .branch cs v
    | none =>
        match firstNE 0 cs with
        | none => .empty
        | some (i, c) =>
            match c with
            | .empty => .empty
            | .leaf q w => .leaf (mkNib i :: q) w
            | .ext q d => .ext (mkNib i :: q) d
            | .branch _ _ => .ext [mkNib i] c

mutual

/-- Modelled from the spec: the Remover (section 4.6).  Descends along the
key, deletes the terminal leaf or branch value, and collapses ancestors on
the way back up; returns the new tree and whether the key was present.  An
absent key leaves the tree unchanged and returns false. -/
def remove : Node → Path → Node × Bool
  | .empty, _ => (.empty, false)
  | .leaf p v, k => if k = p then (.empty, true) else (.leaf p v, false)
  | .ext p c, k =>
      if pfx p k then
        match remove c (k.drop p.length) with
        | (c', true) => (collapseExt p c', true)
        | (_, false) => (.ext p c, false)
      else (.ext p c, false)
  | .branch cs v, [] =>
      match v with
      | some _ => (collapseBranch cs none, true)
      | none => (.branch cs v, false)
  | .branch cs v, i :: k =>
      match removeChildren cs i.1 k with
      | some cs' => (collapseBranch cs' v, true)
      | none => (.branch cs v, false)

def removeChildren : List Node → Nat → Path → Option (List Node)
  | [], _, _ => none
  | c :: cs, 0, k =>
      match remove c k with
      | (c', true) => some (c' :: cs)
      | (_, false) => none
  | c :: cs, i + 1, k =>
      match removeChildren cs i k with
      | some cs' => some (c :: cs')
      | none => none

end

theorem countNE_zero_iff {cs : List Node} : countNE cs = 0 ↔ ∀ c ∈ cs, c = .empty := by
  unfold countNE
  rw [List.length_eq_zero, List.filter_eq_nil_iff]
  constructor
  · intro h c hc
    have := h c hc
    simp only [Bool.not_eq_true'] at this
    exact isEmptyN_iff.mp (by simpa using this)
  · intro h c hc
    rw [h c hc]
    simp [isEmptyN]

theorem countNE_one_unique {cs : List Node} {i : Nat} (h1 : countNE cs = 1)
    (hi : i < cs.length) (hne : isEmptyN (cs.getD i .empty) = false) :
    ∀ j, j < cs.length → j ≠ i → cs.getD j .empty = .empty := by
  intro j hj hji
  rcases hb : isEmptyN (cs.getD j .empty) with _ | _
  · exfalso
    rcases Nat.lt_trichotomy i j with hij | hij | hij
    · have := two_le_countNE cs i j hij hj hne hb
      omega
    · exact hji hij.symm
    · have := two_le_countNE cs j i hij hi hb hne
      omega
  · exact isEmptyN_iff.mp hb

theorem firstNE_spec : ∀ (cs : List Node) (j i : Nat) (c : Node),
    firstNE j cs = some (i, c) →
    j ≤ i ∧ (i - j) < cs.length ∧ cs.getD (i - j) .empty = c ∧ isEmptyN c = false
  | [], j, i, c, h => by cases h
  | c0 :: cs, j, i, c, h => by
      by_cases h0 : isEmptyN c0 = true
      · rw [show firstNE j (c0 :: cs) = firstNE (j + 1) cs by simp [firstNE, h0]] at h
        obtain ⟨hle, hlt, hgd, hne⟩ := firstNE_spec cs (j + 1) i c h
        refine ⟨by omega, by simp [List.length_cons]; omega, ?_, hne⟩
        have hsub : i - j = (i - (j + 1)) + 1 := by omega
        rw [hsub, List.getD_cons_succ]
        exact hgd
      · rw [show firstNE j (c0 :: cs) = some (j, c0) by simp [firstNE, h0]] at h
        injection h with h
        injection h with h1 h2
        subst h1
        subst h2
        refine ⟨le_refl _, by simp, ?_, by simpa using h0⟩
        simp

theorem firstNE_none_iff : ∀ (cs : List Node) (j : Nat),
    firstNE j cs = none ↔ ∀ c ∈ cs, c = .empty
  | [], j => by simp [firstNE]
  | c0 :: cs, j => by
      by_cases h0 : isEmptyN c0 = true
      · rw [show firstNE j (c0 :: cs) = firstNE (j + 1) cs by simp [firstNE, h0]]
        rw [firstNE_none_iff cs (j + 1)]
        simp [isEmptyN_iff.mp h0]
      · rw [show firstNE j (c0 :: cs) = some (j, c0) by simp [firstNE, h0]]
        constructor
        · intro h
          cases h
        · intro h
          exfalso
          rw [h c0 (List.mem_cons_self _ _)] at h0
          exact h0 rfl

theorem mkNib_val {i : Nat} (h : i < 16) : (mkNib i).1 = i := by
  simp [mkNib]
  omega

theorem look_ext_not_pfx {p : Path} {c : Node} {q : Path} (hb : pfx p q = false) :
    look (.ext p c) q = none := by
  have hu : look (.ext p c) q = if pfx p q then look c (q.drop p.length) else none := rfl
  rw [hu, hb]
  rfl

theorem look_collapseExt (p : Path) (c : Node) (q : Path) :
    look (collapseExt p c) q = look (.ext p c) q := by
  have hunf : look (Node.ext p c) q =
      if pfx p q then look c (q.drop p.length) else none := rfl
  match c with
  | .empty =>
      rw [show collapseExt p .empty = .empty from rfl, hunf]
      rcases hb : pfx p q with _ | _
      · rfl
      · rfl
  | .branch cs v => rfl
  | .leaf pl w =>
      rw [show collapseExt p (.leaf pl w) = .leaf (p ++ pl) w from rfl, hunf]
      rcases hb : pfx p q with _ | _
      · have hqp : q ≠ p ++ pl := by
          intro hc
          rw [hc, pfx_append] at hb
          cases hb
        simp [look, hqp]
      · obtain ⟨r, rfl⟩ := pfx_iff.mp hb
        rw [drop_append_self]
        simp only [look]
        by_cases hr : r = pl
        · simp [hr]
        · have : ¬ (p ++ r = p ++ pl) := fun hc => hr (List.append_cancel_left hc)
          simp [hr, this]
  | .ext pe d =>
      rw [show collapseExt p (.ext pe d) = .ext (p ++ pe) d from rfl]
      rcases hb : pfx p q with _ | _
      · rw [look_ext_not_pfx hb]
        have hb2 : pfx (p ++ pe) q = false := by
          rcases hb2 : pfx (p ++ pe) q with _ | _
          · rfl
          · obtain ⟨r, rfl⟩ := pfx_iff.mp hb2
            rw [List.append_assoc, pfx_append] at hb
            cases hb
        rw [look_ext_not_pfx hb2]
      · obtain ⟨r, rfl⟩ := pfx_iff.mp hb
        rw [look_ext_append]
        rcases hb3 : pfx pe r with _ | _
        · rw [look_ext_not_pfx hb3]
          have hb4 : pfx (p ++ pe) (p ++ r) = false := by
            rcases hb4 : pfx (p ++ pe) (p ++ r) with _ | _
            · rfl
            · obtain ⟨s, hs⟩ := pfx_iff.mp hb4
              rw [List.append_assoc] at hs
              rw [List.append_cancel_left hs, pfx_append] at hb3
              cases hb3
          rw [look_ext_not_pfx hb4]
        · obtain ⟨s, rfl⟩ := pfx_iff.mp hb3
          rw [look_ext_append]
          rw [show p ++ (pe ++ s) = (p ++ pe) ++ s from (List.append_assoc p pe s).symm]
          rw [look_ext_append]

theorem look_collapseBranch {cs : List Node} {v : Option Bytes} (h16 : cs.length = 16) :
    ∀ q, look (collapseBranch cs v) q = look (.branch cs v) q := by
  by_cases h2 : 2 ≤ countNE cs
  · intro q
    rw [show collapseBranch cs v = .branch cs v by unfold collapseBranch; rw [if_pos h2]]
  · rcases v with _ | w
    · rcases hfn : firstNE 0 cs with _ | ⟨i, c⟩
      · have hred : collapseBranch cs none = .empty := by
          unfold collapseBranch
          rw [if_neg h2, hfn]
        have hall := (firstNE_none_iff cs 0).mp hfn
        intro q
        rw [hred]
        match q with
        | [] => rfl
        | j :: t =>
            rw [look_branch_cons]
            have hch : cs.getD j.1 .empty = .empty := by
              have hjlt : j.1 < cs.length := by rw [h16]; exact j.2
              rw [List.getD_eq_getElem _ _ hjlt]
              exact hall _ (List.getElem_mem hjlt)
            rw [hch]
            rfl
      · obtain ⟨_, hlt, hgd, hne⟩ := firstNE_spec cs 0 i c hfn
        simp only [Nat.sub_zero] at hlt hgd
        have hi16 : i < 16 := by rw [← h16]; exact hlt
        have hmk : (mkNib i).1 = i := mkNib_val hi16
        have hone : 1 ≤ countNE cs := one_le_countNE hlt (by rw [hgd]; exact hne)
        have hcount1 : countNE cs = 1 := by omega
        have huniq := countNE_one_unique hcount1 hlt (by rw [hgd]; exact hne)
        have hgetne : ∀ j : Nib, j ≠ mkNib i → cs.getD j.1 .empty = .empty := by
          intro j hj
          apply huniq j.1 (by rw [h16]; exact j.2)
          intro hc
          exact hj (Fin.ext (by rw [hmk]; exact hc))
        rcases c with _ | ⟨qc, w⟩ | ⟨qc, d⟩ | ⟨cb, vb⟩
        · simp [isEmptyN] at hne
        · have hred : collapseBranch cs none = .leaf (mkNib i :: qc) w := by
            unfold collapseBranch
            rw [if_neg h2, hfn]
          intro q
          rw [hred]
          match q with
          | [] =>
              have hL : look (Node.leaf (mkNib i :: qc) w) [] = none := by simp [look]
              rw [hL]
              rfl
          | j :: t =>
              rw [look_branch_cons]
              by_cases hj : j = mkNib i
              · subst hj
                rw [hmk, hgd]
                simp only [look]
                by_cases ht : t = qc
                · simp [ht]
                · have hne2 : ¬((mkNib i :: t : Path) = mkNib i :: qc) := by
                    intro hc
                    injection hc with _ hh
                    exact ht hh
                  simp [ht, hne2]
              · rw [hgetne j hj]
                have hL : look (Node.leaf (mkNib i :: qc) w) (j :: t) = none := by
                  have hne2 : ¬((j :: t : Path) = mkNib i :: qc) := by
                    intro hc
                    injection hc with hh _
                    exact hj hh
                  simp [look, hne2]
                rw [hL]
                rfl
        · have hred : collapseBranch cs none = .ext (mkNib i :: qc) d := by
            unfold collapseBranch
            rw [if_neg h2, hfn]
          intro q
          rw [hred]
          match q with
          | [] =>
              rw [look_ext_not_pfx (show pfx (mkNib i :: qc) [] = false from rfl)]
              rfl
          | j :: t =>
              rw [look_branch_cons]
              by_cases hj : j = mkNib i
              · subst hj
                rw [hmk, hgd]
                rcases hpq : pfx qc t with _ | _
                · rw [look_ext_not_pfx hpq]
                  rw [look_ext_not_pfx (show pfx (mkNib i :: qc) (mkNib i :: t) = false by
                    rw [show pfx (mkNib i :: qc) (mkNib i :: t) =
                        if mkNib i = mkNib i then pfx qc t else false from rfl]
                    rw [if_pos rfl, hpq])]
                · obtain ⟨s2, rfl⟩ := pfx_iff.mp hpq
                  rw [show (mkNib i :: (qc ++ s2) : Path) = (mkNib i :: qc) ++ s2 from rfl]
                  rw [look_ext_append, look_ext_append]
              · rw [hgetne j hj]
                rw [look_ext_not_pfx (show pfx (mkNib i :: qc) (j :: t) = false by
                  rw [show pfx (mkNib i :: qc) (j :: t) =
                      if mkNib i = j then pfx qc t else false from rfl]
                  rw [if_neg (fun hc => hj hc.symm)])]
                rfl
        · have hred : collapseBranch cs none = .ext [mkNib i] (.branch cb vb) := by
            unfold collapseBranch
            rw [if_neg h2, hfn]
          intro q
          rw [hred]
          match q with
          | [] =>
              rw [look_ext_not_pfx (show pfx [mkNib i] [] = false from rfl)]
              rfl
          | j :: t =>
              rw [look_branch_cons]
              by_cases hj : j = mkNib i
              · subst hj
                rw [hmk, hgd]
                rw [show (mkNib i :: t : Path) = [mkNib i] ++ t from rfl, look_ext_append]
              · rw [hgetne j hj]
                rw [look_ext_not_pfx (show pfx [mkNib i] (j :: t) = false by
                  rw [show pfx [mkNib i] (j :: t) =
                      if mkNib i = j then pfx [] t else false from rfl]
                  rw [if_neg (fun hc => hj hc.symm)])]
                rfl
    · by_cases h0 : countNE cs = 0
      · have hred : collapseBranch cs (some w) = .leaf [] w := by
          unfold collapseBranch
          rw [if_neg h2]
          show (if countNE cs = 0 then Node.leaf [] w else Node.branch cs (some w)) = Node.leaf [] w
          rw [if_pos h0]
        have hall := countNE_zero_iff.mp h0
        intro q
        rw [hred]
        match q with
        | [] =>
            have hL : look (Node.leaf ([] : Path) w) [] = some w := by simp [look]
            rw [hL]
            rfl
        | j :: t =>
            rw [look_branch_cons]
            have hch : cs.getD j.1 .empty = .empty := by
              have hjlt : j.1 < cs.length := by rw [h16]; exact j.2
              rw [List.getD_eq_getElem _ _ hjlt]
              exact hall _ (List.getElem_mem hjlt)
            rw [hch]
            have hL : look (Node.leaf ([] : Path) w) (j :: t) = none := by simp [look]
            rw [hL]
            rfl
      · intro q
        rw [show collapseBranch cs (some w) = .branch cs (some w) by
          unfold collapseBranch
          rw [if_neg h2]
          show (if countNE cs = 0 then Node.leaf [] w else Node.branch cs (some w)) =
            Node.branch cs (some w)
          rw [if_neg h0]]

theorem canon_collapseExt {p : Path} {c : Node} (hp : p ≠ []) (hc : canon c = true) :
    canon (collapseExt p c) = true := by
  match c with
  | .empty => rfl
  | .leaf q w => rfl
  | .ext q d =>
      obtain ⟨⟨cs, w, hbr⟩, hqne, hcd⟩ := canon_ext_iff.mp hc
      apply canon_ext_iff.mpr
      refine ⟨⟨cs, w, hbr⟩, ?_, hcd⟩
      intro hcon
      exact hp (List.append_eq_nil.mp hcon).1
  | .branch cb vb =>
      apply canon_ext_iff.mpr
      exact ⟨⟨cb, vb, rfl⟩, hp, hc⟩

theorem canon_collapseBranch {cs : List Node} {v : Option Bytes} (h16 : cs.length = 16)
    (hall : ∀ c ∈ cs, canon c = true) : canon (collapseBranch cs v) = true := by
  by_cases h2 : 2 ≤ countNE cs
  · rw [show collapseBranch cs v = .branch cs v by unfold collapseBranch; rw [if_pos h2]]
    exact canon_branch_iff.mpr ⟨h16, Or.inl h2, hall⟩
  · rcases v with _ | w
    · rcases hfn : firstNE 0 cs with _ | ⟨i, c⟩
      · rw [show collapseBranch cs none = .empty by unfold collapseBranch; rw [if_neg h2, hfn]]
        rfl
      · obtain ⟨_, hlt, hgd, hne⟩ := firstNE_spec cs 0 i c hfn
        simp only [Nat.sub_zero] at hlt hgd
        have hcc : canon c = true := by
          rw [← hgd, List.getD_eq_getElem _ _ hlt]
          exact hall _ (List.getElem_mem hlt)
        rcases c with _ | ⟨qc, w⟩ | ⟨qc, d⟩ | ⟨cb, vb⟩
        · simp [isEmptyN] at hne
        · rw [show collapseBranch cs none = .leaf (mkNib i :: qc) w by
            unfold collapseBranch
            rw [if_neg h2, hfn]]
          rfl
        · rw [show collapseBranch cs none = .ext (mkNib i :: qc) d by
            unfold collapseBranch
            rw [if_neg h2, hfn]]
          obtain ⟨⟨cd, wd, hbr⟩, hqne, hcd⟩ := canon_ext_iff.mp hcc
          apply canon_ext_iff.mpr
          exact ⟨⟨cd, wd, hbr⟩, by simp, hcd⟩
        · rw [show collapseBranch cs none = .ext [mkNib i] (.branch cb vb) by
            unfold collapseBranch
            rw [if_neg h2, hfn]]
          apply canon_ext_iff.mpr
          exact ⟨⟨cb, vb, rfl⟩, by simp, hcc⟩
    · by_cases h0 : countNE cs = 0
      · rw [show collapseBranch cs (some w) = .leaf [] w by
          unfold collapseBranch
          rw [if_neg h2]
          show (if countNE cs = 0 then Node.leaf [] w else Node.branch cs (some w)) =
            Node.leaf [] w
          rw [if_pos h0]]
        rfl
      · rw [show collapseBranch cs (some w) = .branch cs (some w) by
          unfold collapseBranch
          rw [if_neg h2]
          show (if countNE cs = 0 then Node.leaf [] w else Node.branch cs (some w)) =
            Node.branch cs (some w)
          rw [if_neg h0]]
        exact canon_branch_iff.mpr ⟨h16, Or.inr ⟨by omega, rfl⟩, hall⟩

theorem getD_set_self {cs : List Node} {i : Nat} {x d : Node} (h : i < cs.length) :
    (cs.set i x).getD i d = x := by
  rw [List.getD_eq_getElem _ _ (by rw [List.length_set]; exact h)]
  exact List.getElem_set_self _

theorem getD_set_ne {cs : List Node} {i j : Nat} {x d : Node} (h : i ≠ j) :
    (cs.set i x).getD j d = cs.getD j d := by
  by_cases hj : j < cs.length
  · rw [List.getD_eq_getElem _ _ (by rw [List.length_set]; exact hj),
      List.getD_eq_getElem _ _ hj]
    exact List.getElem_set_ne h _
  · rw [List.getD_eq_default _ _ (by rw [List.length_set]; omega),
      List.getD_eq_default _ _ (by omega)]

theorem removeChildren_none_of_ge : ∀ (cs : List Node) (i : Nat) (k : Path),
    cs.length ≤ i → removeChildren cs i k = none
  | [], _, _, _ => rfl
  | c :: cs, 0, k, h => by simp at h
  | c :: cs, i + 1, k, h => by
      rw [show removeChildren (c :: cs) (i + 1) k =
          (match removeChildren cs i k with
           | some cs' => some (c :: cs')
           | none => none) from rfl]
      rw [removeChildren_none_of_ge cs i k (by simpa using h)]

theorem removeChildren_lt : ∀ (cs : List Node) (i : Nat) (k : Path), i < cs.length →
    removeChildren cs i k =
      (if (remove (cs.getD i .empty) k).2 = true
       then some (cs.set i (remove (cs.getD i .empty) k).1)
       else none)
  | [], i, k, h => by simp at h
  | c :: cs, 0, k, _ => by
      rw [List.getD_cons_zero, List.set_cons_zero]
      rw [show removeChildren (c :: cs) 0 k =
          (match remove c k with
           | (c', true) => some (c' :: cs)
           | (_, false) => none) from rfl]
      rcases hR : remove c k with ⟨c', b⟩
      rcases b with _ | _
      · rfl
      · rfl
  | c :: cs, i + 1, k, h => by
      rw [List.getD_cons_succ, List.set_cons_succ]
      rw [show removeChildren (c :: cs) (i + 1) k =
          (match removeChildren cs i k with
           | some cs' => some (c :: cs')
           | none => none) from rfl]
      rw [removeChildren_lt cs i k (by simpa using h)]
      by_cases hb : (remove (cs.getD i .empty) k).2 = true
      · rw [if_pos hb, if_pos hb]
      · rw [if_neg hb, if_neg hb]

theorem remove_leaf (p : Path) (v : Bytes) (k : Path) :
    remove (.leaf p v) k = if k = p then (.empty, true) else (.leaf p v, false) := rfl

theorem look_leaf (p : Path) (v : Bytes) (k : Path) :
    look (.leaf p v) k = if k = p then some v else none := rfl

theorem remove_ext (p : Path) (c : Node) (k : Path) :
    remove (.ext p c) k =
      if pfx p k then
        (match remove c (k.drop p.length) with
         | (c', true) => (collapseExt p c', true)
         | (_, false) => (.ext p c, false))
      else (.ext p c, false) := rfl

theorem remove_branch_nil (cs : List Node) (v : Option Bytes) :
    remove (.branch cs v) [] =
      (match v with
       | some _ => (collapseBranch cs none, true)
       | none => (.branch cs v, false)) := rfl

theorem remove_branch_cons (cs : List Node) (v : Option Bytes) (i : Nib) (k : Path) :
    remove (.branch cs v) (i :: k) =
      (match removeChildren cs i.1 k with
       | some cs' => (collapseBranch cs' v, true)
       | none => (.branch cs v, false)) := rfl

theorem ht_branch_child {cs : List Node} {v : Option Bytes} {n : Nat} {j : Nat}
    (hht : ht (.branch cs v) ≤ n + 1) (hj : j < cs.length) :
    ht (cs.getD j .empty) ≤ n := by
  have h1 : ht (cs.getD j .empty) ≤ htL cs := by
    rw [List.getD_eq_getElem _ _ hj]
    exact ht_mem_le (List.getElem_mem hj)
  simp only [ht] at hht
  omega

theorem remove_found_fuel : ∀ (n : Nat) (T : Node) (k : Path), ht T ≤ n →
    ((remove T k).2 = true ↔ (look T k).isSome = true) ∧
    ((remove T k).2 = false → (remove T k).1 = T) := by
  intro n
  induction n with
  | zero =>
      intro T k hht
      match T with
      | .empty => exact ⟨by simp [remove, look], fun _ => rfl⟩
      | .leaf p v =>
          by_cases hk : k = p
          · rw [remove_leaf, if_pos hk, look_leaf, if_pos hk]
            exact ⟨by simp, fun h => by cases h⟩
          · rw [remove_leaf, if_neg hk, look_leaf, if_neg hk]
            exact ⟨by simp, fun _ => rfl⟩
      | .ext p c => simp [ht] at hht
      | .branch cs v => simp [ht] at hht
  | succ n ihn =>
      intro T k hht
      match T with
      | .empty => exact ⟨by simp [remove, look], fun _ => rfl⟩
      | .leaf p v =>
          by_cases hk : k = p
          · rw [remove_leaf, if_pos hk, look_leaf, if_pos hk]
            exact ⟨by simp, fun h => by cases h⟩
          · rw [remove_leaf, if_neg hk, look_leaf, if_neg hk]
            exact ⟨by simp, fun _ => rfl⟩
      | .ext p c =>
          have hhtc : ht c ≤ n := by
            simp only [ht] at hht
            omega
          rcases hp : pfx p k with _ | _
          · rw [remove_ext, hp]
            rw [look_ext_not_pfx hp]
            exact ⟨by simp, fun _ => rfl⟩
          · obtain ⟨kr, rfl⟩ := pfx_iff.mp hp
            have ihc := ihn c kr hhtc
            rw [remove_ext, hp, drop_append_self, look_ext_append]
            rcases hR : remove c kr with ⟨c', b⟩
            rcases b with _ | _
            · have hnone : (look c kr).isSome = false := by
                rcases hb2 : (look c kr).isSome with _ | _
                · rfl
                · exact absurd (ihc.1.mpr hb2) (by rw [hR]; simp)
              exact ⟨by simp [hnone], fun _ => rfl⟩
            · refine ⟨?_, fun h => by cases h⟩
              have hsome := ihc.1.mp (by rw [hR])
              simp [hsome]
      | .branch cs v =>
          match k with
          | [] =>
              rcases v with _ | w
              · rw [remove_branch_nil]
                exact ⟨by simp [look], fun _ => rfl⟩
              · rw [remove_branch_nil]
                refine ⟨?_, fun h => by cases h⟩
                have hl : look (Node.branch cs (some w)) [] = some w := rfl
                rw [hl]
                simp
          | i :: k' =>
              by_cases hlt : i.1 < cs.length
              · rw [remove_branch_cons, removeChildren_lt cs i.1 k' hlt, look_branch_cons]
                have ihc := ihn (cs.getD i.1 .empty) k' (ht_branch_child hht hlt)
                by_cases hb : (remove (cs.getD i.1 .empty) k').2 = true
                · rw [if_pos hb]
                  have hsome := ihc.1.mp hb
                  exact ⟨⟨fun _ => hsome, fun _ => rfl⟩, fun h => by cases h⟩
                · rw [if_neg hb]
                  have hnone : (look (cs.getD i.1 .empty) k').isSome = false := by
                    rcases hb2 : (look (cs.getD i.1 .empty) k').isSome with _ | _
                    · rfl
                    · exact absurd (ihc.1.mpr hb2) hb
                  constructor
                  · constructor
                    · intro h
                      cases h
                    · intro h2
                      rw [hnone] at h2
                      cases h2
                  · intro _
                    rfl
              · rw [remove_branch_cons, removeChildren_none_of_ge cs i.1 k' (by omega),
                  look_branch_cons, List.getD_eq_default _ _ (by omega)]
                exact ⟨by simp [look], fun _ => rfl⟩

theorem remove_found {T : Node} {k : Path} :
    (remove T k).2 = true ↔ (look T k).isSome = true :=
  (remove_found_fuel (ht T) T k (le_refl _)).1

theorem remove_unchanged {T : Node} {k : Path} (h : (remove T k).2 = false) :
    (remove T k).1 = T :=
  (remove_found_fuel (ht T) T k (le_refl _)).2 h

theorem remove_ext_found {p : Path} {c : Node} {kr : Path} (hb : (remove c kr).2 = true) :
    remove (.ext p c) (p ++ kr) = (collapseExt p (remove c kr).1, true) := by
  rw [remove_ext, pfx_append, drop_append_self]
  rcases hR : remove c kr with ⟨c', b⟩
  rcases b with _ | _
  · rw [hR] at hb
    cases hb
  · rfl

theorem remove_ext_notfound {p : Path} {c : Node} {kr : Path} (hb : (remove c kr).2 = false) :
    remove (.ext p c) (p ++ kr) = (.ext p c, false) := by
  rw [remove_ext, pfx_append, drop_append_self]
  rcases hR : remove c kr with ⟨c', b⟩
  rcases b with _ | _
  · rfl
  · rw [hR] at hb
    cases hb

theorem remove_ext_nopfx {p : Path} {c : Node} {k : Path} (hp : pfx p k = false) :
    remove (.ext p c) k = (.ext p c, false) := by
  rw [remove_ext, hp]
  rfl

theorem remove_branch_nil_some (cs : List Node) (w : Bytes) :
    remove (.branch cs (some w)) [] = (collapseBranch cs none, true) := rfl

theorem remove_branch_cons_found {cs : List Node} {v : Option Bytes} {i : Nib} {k : Path}
    (hlt : i.1 < cs.length) (hb : (remove (cs.getD i.1 .empty) k).2 = true) :
    remove (.branch cs v) (i :: k) =
      (collapseBranch (cs.set i.1 (remove (cs.getD i.1 .empty) k).1) v, true) := by
  rw [remove_branch_cons, removeChildren_lt cs i.1 k hlt, if_pos hb]

theorem remove_branch_cons_notfound {cs : List Node} {v : Option Bytes} {i : Nib} {k : Path}
    (hlt : i.1 < cs.length) (hb : (remove (cs.getD i.1 .empty) k).2 = false) :
    remove (.branch cs v) (i :: k) = (.branch cs v, false) := by
  rw [remove_branch_cons, removeChildren_lt cs i.1 k hlt,
    if_neg (by rw [hb]; exact Bool.false_ne_true)]

theorem remove_canon_look_fuel : ∀ (n : Nat) (T : Node) (k : Path) (T' : Node) (b : Bool),
    ht T ≤ n → canon T = true → remove T k = (T', b) →
    canon T' = true ∧ (b = true → ∀ q, look T' q = if q = k then none else look T q) := by
  intro n
  induction n with
  | zero =>
      intro T k T' b hht hcT hRem
      match T with
      | .empty =>
          injection hRem with h1 h2
          subst h1
          subst h2
          exact ⟨rfl, fun h => by cases h⟩
      | .leaf p v =>
          by_cases hk : k = p
          · rw [remove_leaf, if_pos hk] at hRem
            injection hRem with h1 h2
            subst h1
            subst h2
            refine ⟨rfl, fun _ q => ?_⟩
            by_cases hq : q = k
            · rw [if_pos hq]
              rfl
            · rw [if_neg hq, look_leaf, if_neg (by rw [← hk]; exact hq)]
              rfl
          · rw [remove_leaf, if_neg hk] at hRem
            injection hRem with h1 h2
            subst h1
            subst h2
            exact ⟨hcT, fun h => by cases h⟩
      | .ext p c => simp [ht] at hht
      | .branch cs v => simp [ht] at hht
  | succ n ihn =>
      intro T k T' b hht hcT hRem
      match T with
      | .empty =>
          injection hRem with h1 h2
          subst h1
          subst h2
          exact ⟨rfl, fun h => by cases h⟩
      | .leaf p v =>
          by_cases hk : k = p
          · rw [remove_leaf, if_pos hk] at hRem
            injection hRem with h1 h2
            subst h1
            subst h2
            refine ⟨rfl, fun _ q => ?_⟩
            by_cases hq : q = k
            · rw [if_pos hq]
              rfl
            · rw [if_neg hq, look_leaf, if_neg (by rw [← hk]; exact hq)]
              rfl
          · rw [remove_leaf, if_neg hk] at hRem
            injection hRem with h1 h2
            subst h1
            subst h2
            exact ⟨hcT, fun h => by cases h⟩
      | .ext p c =>
          obtain ⟨⟨cse, ve, hbr⟩, hpne, hcc⟩ := canon_ext_iff.mp hcT
          have hhtc : ht c ≤ n := by
            simp only [ht] at hht
            omega
          rcases hp : pfx p k with _ | _
          · rw [remove_ext_nopfx hp] at hRem
            injection hRem with h1 h2
            subst h1
            subst h2
            exact ⟨hcT, fun h => by cases h⟩
          · obtain ⟨kr, rfl⟩ := pfx_iff.mp hp
            have ihc := ihn c kr (remove c kr).1 (remove c kr).2 hhtc hcc rfl
            by_cases hb : (remove c kr).2 = true
            · rw [remove_ext_found hb] at hRem
              injection hRem with h1 h2
              subst h1
              subst h2
              refine ⟨canon_collapseExt hpne ihc.1, fun _ q => ?_⟩
              rw [look_collapseExt]
              rcases hpq : pfx p q with _ | _
              · rw [look_ext_not_pfx hpq]
                have hqk : q ≠ p ++ kr := by
                  intro hcon
                  rw [hcon, pfx_append] at hpq
                  cases hpq
                rw [if_neg hqk, look_ext_not_pfx hpq]
              · obtain ⟨r, rfl⟩ := pfx_iff.mp hpq
                rw [look_ext_append]
                rw [ihc.2 hb r]
                by_cases hr : r = kr
                · rw [if_pos hr, if_pos (by rw [hr])]
                · rw [if_neg hr, if_neg (fun hcon => hr (List.append_cancel_left hcon)),
                    look_ext_append]
            · have hb' : (remove c kr).2 = false := by
                rcases hbb : (remove c kr).2 with _ | _
                · rfl
                · exact absurd hbb hb
              rw [remove_ext_notfound hb'] at hRem
              injection hRem with h1 h2
              subst h1
              subst h2
              exact ⟨hcT, fun h => by cases h⟩
      | .branch cs v =>
          obtain ⟨h16, hcnt, hall⟩ := canon_branch_iff.mp hcT
          match k with
          | [] =>
              rcases v with _ | w
              · rw [remove_branch_nil] at hRem
                injection hRem with h1 h2
                subst h1
                subst h2
                exact ⟨hcT, fun h => by cases h⟩
              · rw [remove_branch_nil_some] at hRem
                injection hRem with h1 h2
                subst h1
                subst h2
                refine ⟨canon_collapseBranch h16 hall, fun _ q => ?_⟩
                rw [look_collapseBranch h16]
                match q with
                | [] => rfl
                | j :: t =>
                    rw [if_neg (by simp), look_branch_cons, look_branch_cons]
          | i :: k' =>
              by_cases hlt : i.1 < cs.length
              · have hcchild : canon (cs.getD i.1 .empty) = true := canon_branch_child hcT hlt
                have ihc := ihn (cs.getD i.1 .empty) k' (remove (cs.getD i.1 .empty) k').1
                  (remove (cs.getD i.1 .empty) k').2 (ht_branch_child hht hlt) hcchild rfl
                by_cases hb : (remove (cs.getD i.1 .empty) k').2 = true
                · rw [remove_branch_cons_found hlt hb] at hRem
                  injection hRem with h1 h2
                  subst h1
                  subst h2
                  have h16s : (cs.set i.1 (remove (cs.getD i.1 .empty) k').1).length = 16 := by
                    rw [List.length_set]
                    exact h16
                  have halls : ∀ c ∈ cs.set i.1 (remove (cs.getD i.1 .empty) k').1,
                      canon c = true := by
                    intro c hcmem
                    rcases List.mem_or_eq_of_mem_set hcmem with hm | rfl
                    · exact hall c hm
                    · exact ihc.1
                  refine ⟨canon_collapseBranch h16s halls, fun _ q => ?_⟩
                  rw [look_collapseBranch h16s]
                  match q with
                  | [] =>
                      rw [if_neg (by simp)]
                      rfl
                  | j :: t =>
                      rw [look_branch_cons]
                      by_cases hj : j = i
                      · subst hj
                        rw [getD_set_self hlt]
                        rw [ihc.2 hb t]
                        by_cases ht' : t = k'
                        · rw [if_pos ht', if_pos (by rw [ht'])]
                        · rw [if_neg ht', if_neg (by
                            intro hcon
                            injection hcon with _ hh
                            exact ht' hh), look_branch_cons]
                      · have hne : i.1 ≠ j.1 := fun hcon => hj (Fin.ext hcon.symm)
                        rw [getD_set_ne hne]
                        rw [if_neg (by
                          intro hcon
                          injection hcon with hh _
                          exact hj hh), look_branch_cons]
                · have hb' : (remove (cs.getD i.1 .empty) k').2 = false := by
                    rcases hbb : (remove (cs.getD i.1 .empty) k').2 with _ | _
                    · rfl
                    · exact absurd hbb hb
                  rw [remove_branch_cons_notfound hlt hb'] at hRem
                  injection hRem with h1 h2
                  subst h1
                  subst h2
                  exact ⟨hcT, fun h => by cases h⟩
              · rw [remove_branch_cons, removeChildren_none_of_ge cs i.1 k' (by omega)] at hRem
                injection hRem with h1 h2
                subst h1
                subst h2
                exact ⟨hcT, fun h => by cases h⟩

theorem remove_canon {T : Node} {k : Path} (hc : canon T = true) :
    canon (remove T k).1 = true :=
  (remove_canon_look_fuel (ht T) T k (remove T k).1 (remove T k).2 (le_refl _) hc rfl).1

theorem remove_look {T : Node} {k : Path} (hc : canon T = true)
    (hb : (remove T k).2 = true) (q : Path) :
    look (remove T k).1 q = if q = k then none else look T q :=
  (remove_canon_look_fuel (ht T) T k (remove T k).1 (remove T k).2 (le_refl _) hc rfl).2 hb q

/-- Modelled from the spec: hex-prefix encoding of a nibble path (Codec,
section 4.3): a flag element carrying the leaf/extension bit and the
odd-length bit, followed by the nibbles. -/
def hpEnc (leafFlag : Bool) (p : Path) : List Nat :=
  ((if leafFlag then 2 else 0) + (if p.length % 2 = 1 then 1 else 0)) :: p.map Fin.val

/-- Modelled from the spec: the reference a parent stores for a child
(Codec, section 4.3): a fixed marker for an empty slot; the raw encoding
inline when its length is below the threshold 32; otherwise the digest of
the encoding.  A tag and a length element keep references self-delimiting.
`e` is the child encoding, supplied by `encode`. -/
def mkRef (H : List Nat → List Nat) (c : Node) (e : List Nat) : List Nat :=
  match c with
  | .empty => [0]
  | _ => if e.length < 32 then 1 :: e.length :: e else 2 :: (H e).length :: H e

mutual

/-- Modelled from the spec: the binary encoding of a node (Codec, section
4.3): a leaf as flagged hex-prefix path plus value, an extension as flagged
hex-prefix path plus child reference, a branch as 16 child-reference slots
followed by the optional value, and a marker for the empty node. -/
def encode (H : List Nat → List Nat) : Node → List Nat
  | .empty => [128]
  | .leaf p v => 0 :: (hpEnc true p).length :: (hpEnc true p ++ (v.length :: v))
  | .ext p c => 1 :: (hpEnc false p).length :: (hpEnc false p ++ mkRef H c (encode H c))
  | .branch cs v =>
      2 :: (encodeSlots H cs ++
        (match v with
         | none => [0]
         | some w => 1 :: w.length :: w))

def encodeSlots (H : List Nat → List Nat) : List Node → List Nat
  | [] => []
  | c :: cs => mkRef H c (encode H c) ++ encodeSlots H cs

end

/-- Digest rule (Codec, section 4.3): the root is always exposed as the
digest of its encoding, never inlined. -/
def digest (H : List Nat → List Nat) (T : Node) : List Nat := H (encode H T)

theorem hpEnc_inj {b b' : Bool} {p p' : Path} (h : hpEnc b p = hpEnc b' p') : p = p' := by
  unfold hpEnc at h
  injection h with _ h2
  exact List.map_injective_iff.mpr (fun a a' ha => Fin.ext ha) h2

theorem delim_append_inj : ∀ {x y r r' : List Nat},
    x ++ r = y ++ r' →
    (x = [0] ∨ ∃ t l pl, (t = 1 ∨ t = 2) ∧ x = t :: l :: pl ∧ pl.length = l) →
    (y = [0] ∨ ∃ t l pl, (t = 1 ∨ t = 2) ∧ y = t :: l :: pl ∧ pl.length = l) →
    x = y ∧ r = r' := by
  intro x y r r' happ hx hy
  rcases hx with rfl | ⟨t, l, pl, ht, rfl, hlen⟩
  · rcases hy with rfl | ⟨t', l', pl', ht', rfl, hlen'⟩
    · simp only [List.cons_append, List.nil_append] at happ
      injection happ with _ h2
      exact ⟨rfl, h2⟩
    · simp only [List.cons_append] at happ
      injection happ with h1 _
      rcases ht' with rfl | rfl
      · cases h1
      · cases h1
  · rcases hy with rfl | ⟨t', l', pl', ht', rfl, hlen'⟩
    · simp only [List.cons_append] at happ
      injection happ with h1 _
      rcases ht with rfl | rfl
      · cases h1
      · cases h1
    · have hlx : (t :: l :: pl).length = (t' :: l' :: pl').length := by
        simp only [List.cons_append] at happ
        injection happ with h1 h2
        injection h2 with h3 h4
        simp only [List.length_cons]
        omega
      exact List.append_inj happ hlx

theorem mkRef_shape (H : List Nat → List Nat) (c : Node) (e : List Nat) :
    mkRef H c e = [0] ∨
    ∃ t l pl, (t = 1 ∨ t = 2) ∧ mkRef H c e = t :: l :: pl ∧ pl.length = l := by
  match c with
  | .empty => exact Or.inl rfl
  | .leaf p v =>
      right
      by_cases hlt : e.length < 32
      · exact ⟨1, e.length, e, Or.inl rfl, by rw [show mkRef H (.leaf p v) e =
          if e.length < 32 then 1 :: e.length :: e else 2 :: (H e).length :: H e from rfl,
          if_pos hlt], rfl⟩
      · exact ⟨2, (H e).length, H e, Or.inr rfl, by rw [show mkRef H (.leaf p v) e =
          if e.length < 32 then 1 :: e.length :: e else 2 :: (H e).length :: H e from rfl,
          if_neg hlt], rfl⟩
  | .ext p c' =>
      right
      by_cases hlt : e.length < 32
      · exact ⟨1, e.length, e, Or.inl rfl, by rw [show mkRef H (.ext p c') e =
          if e.length < 32 then 1 :: e.length :: e else 2 :: (H e).length :: H e from rfl,
          if_pos hlt], rfl⟩
      · exact ⟨2, (H e).length, H e, Or.inr rfl, by rw [show mkRef H (.ext p c') e =
          if e.length < 32 then 1 :: e.length :: e else 2 :: (H e).length :: H e from rfl,
          if_neg hlt], rfl⟩
  | .branch cs v =>
      right
      by_cases hlt : e.length < 32
      · exact ⟨1, e.length, e, Or.inl rfl, by rw [show mkRef H (.branch cs v) e =
          if e.length < 32 then 1 :: e.length :: e else 2 :: (H e).length :: H e from rfl,
          if_pos hlt], rfl⟩
      · exact ⟨2, (H e).length, H e, Or.inr rfl, by rw [show mkRef H (.branch cs v) e =
          if e.length < 32 then 1 :: e.length :: e else 2 :: (H e).length :: H e from rfl,
          if_neg hlt], rfl⟩

theorem mkRef_ne_empty (H : List Nat → List Nat) {c : Node} (hc : c ≠ .empty) (e : List Nat) :
    mkRef H c e = if e.length < 32 then 1 :: e.length :: e else 2 :: (H e).length :: H e := by
  match c with
  | .empty => exact absurd rfl hc
  | .leaf p v => rfl
  | .ext p c' => rfl
  | .branch cs v => rfl

theorem mkRef_inj {H : List Nat → List Nat} (hH : Function.Injective H) {c c' : Node}
    {e e' : List Nat} (h : mkRef H c e = mkRef H c' e') :
    (c = .empty ↔ c' = .empty) ∧ (c ≠ .empty → c' ≠ .empty → e = e') := by
  by_cases hc : c = .empty
  · by_cases hc' : c' = .empty
    · exact ⟨by simp [hc, hc'], fun hn _ => absurd hc hn⟩
    · exfalso
      rw [hc, show mkRef H .empty e = [0] from rfl, mkRef_ne_empty H hc'] at h
      by_cases hlt : e'.length < 32
      · rw [if_pos hlt] at h
        injection h with h1 _
        cases h1
      · rw [if_neg hlt] at h
        injection h with h1 _
        cases h1
  · by_cases hc' : c' = .empty
    · exfalso
      rw [hc', show mkRef H .empty e' = [0] from rfl, mkRef_ne_empty H hc] at h
      by_cases hlt : e.length < 32
      · rw [if_pos hlt] at h
        injection h with h1 _
        cases h1
      · rw [if_neg hlt] at h
        injection h with h1 _
        cases h1
    · refine ⟨by simp [hc, hc'], fun _ _ => ?_⟩
      rw [mkRef_ne_empty H hc, mkRef_ne_empty H hc'] at h
      by_cases hlt : e.length < 32
      · by_cases hlt' : e'.length < 32
        · rw [if_pos hlt, if_pos hlt'] at h
          injection h with _ h2
          injection h2 with _ h3
        · rw [if_pos hlt, if_neg hlt'] at h
          injection h with h1 _
          cases h1
      · by_cases hlt' : e'.length < 32
        · rw [if_neg hlt, if_pos hlt'] at h
          injection h with h1 _
          cases h1
        · rw [if_neg hlt, if_neg hlt'] at h
          injection h with _ h2
          injection h2 with _ h3
          exact hH h3

theorem encodeSlots_cons (H : List Nat → List Nat) (c : Node) (cs : List Node) :
    encodeSlots H (c :: cs) = mkRef H c (encode H c) ++ encodeSlots H cs := rfl

theorem encodeSlots_inj_aux {H : List Nat → List Nat} (hH : Function.Injective H) :
    ∀ (cs cs' : List Node) (t t' : List Nat),
    cs.length = cs'.length →
    (∀ c ∈ cs, ∀ c' ∈ cs', encode H c = encode H c' → c = c') →
    encodeSlots H cs ++ t = encodeSlots H cs' ++ t' → cs = cs' ∧ t = t'
  | [], [], t, t', _, _, h => ⟨rfl, by simpa [encodeSlots] using h⟩
  | [], c' :: cs', _, _, hlen, _, _ => by simp at hlen
  | c :: cs, [], _, _, hlen, _, _ => by simp at hlen
  | c :: cs, c' :: cs', t, t', hlen, hpair, h => by
      rw [encodeSlots_cons, encodeSlots_cons, List.append_assoc, List.append_assoc] at h
      obtain ⟨h1, h2⟩ := delim_append_inj h (mkRef_shape H c (encode H c))
        (mkRef_shape H c' (encode H c'))
      have hmk := mkRef_inj hH h1
      have hcc' : c = c' := by
        by_cases hce : c = .empty
        · rw [hce, hmk.1.mp hce]
        · have hc'e : c' ≠ .empty := fun hx => hce (hmk.1.mpr hx)
          exact hpair c (List.mem_cons_self _ _) c' (List.mem_cons_self _ _)
            (hmk.2 hce hc'e)
      obtain ⟨hcs, hts⟩ := encodeSlots_inj_aux hH cs cs' t t' (by simpa using hlen)
        (fun a ha a' ha' => hpair a (List.mem_cons_of_mem _ ha) a' (List.mem_cons_of_mem _ ha'))
        h2
      exact ⟨by rw [hcc', hcs], hts⟩

theorem encode_inj_fuel {H : List Nat → List Nat} (hH : Function.Injective H) :
    ∀ (n : Nat) (T U : Node), ht T ≤ n → canon T = true → canon U = true →
    encode H T = encode H U → T = U := by
  intro n
  induction n with
  | zero =>
      intro T U hht hcT hcU h
      match T with
      | .ext p c => simp [ht] at hht
      | .branch cs v => simp [ht] at hht
      | .empty =>
          match U with
          | .empty => rfl
          | .leaf p' v' =>
              injection h with h1 _
              cases h1
          | .ext p' c' =>
              injection h with h1 _
              cases h1
          | .branch cs' v' =>
              injection h with h1 _
              cases h1
      | .leaf p v =>
          match U with
          | .empty =>
              injection h with h1 _
              cases h1
          | .ext p' c' =>
              injection h with h1 _
              cases h1
          | .branch cs' v' =>
              injection h with h1 _
              cases h1
          | .leaf p' v' =>
              injection h with _ h2
              injection h2 with hlen h3
              obtain ⟨h4, h5⟩ := List.append_inj h3 hlen
              have hp := hpEnc_inj h4
              injection h5 with _ h6
              rw [hp, h6]
  | succ n ihn =>
      intro T U hht hcT hcU h
      match T with
      | .empty =>
          match U with
          | .empty => rfl
          | .leaf p' v' =>
              injection h with h1 _
              cases h1
          | .ext p' c' =>
              injection h with h1 _
              cases h1
          | .branch cs' v' =>
              injection h with h1 _
              cases h1
      | .leaf p v =>
          match U with
          | .empty =>
              injection h with h1 _
              cases h1
          | .ext p' c' =>
              injection h with h1 _
              cases h1
          | .branch cs' v' =>
              injection h with h1 _
              cases h1
          | .leaf p' v' =>
              injection h with _ h2
              injection h2 with hlen h3
              obtain ⟨h4, h5⟩ := List.append_inj h3 hlen
              have hp := hpEnc_inj h4
              injection h5 with _ h6
              rw [hp, h6]
      | .ext p c =>
          match U with
          | .empty =>
              injection h with h1 _
              cases h1
          | .leaf p' v' =>
              injection h with h1 _
              cases h1
          | .branch cs' v' =>
              injection h with h1 _
              cases h1
          | .ext p' c' =>
              obtain ⟨⟨cse, ve, hbr⟩, hpne, hcc⟩ := canon_ext_iff.mp hcT
              obtain ⟨⟨cse', ve', hbr'⟩, hpne', hcc'⟩ := canon_ext_iff.mp hcU
              injection h with _ h2
              injection h2 with hlen h3
              obtain ⟨h4, h5⟩ := List.append_inj h3 hlen
              have hp := hpEnc_inj h4
              have hmk := mkRef_inj hH h5
              have hcne : c ≠ .empty := by
                rw [hbr]
                exact fun hx => Node.noConfusion hx
              have hc'ne : c' ≠ .empty := by
                rw [hbr']
                exact fun hx => Node.noConfusion hx
              have henc := hmk.2 hcne hc'ne
              have hhtc : ht c ≤ n := by
                simp only [ht] at hht
                omega
              rw [hp, ihn c c' hhtc hcc hcc' henc]
      | .branch cs v =>
          match U with
          | .empty =>
              injection h with h1 _
              cases h1
          | .leaf p' v' =>
              injection h with h1 _
              cases h1
          | .ext p' c' =>
              injection h with h1 _
              cases h1
          | .branch cs' v' =>
              obtain ⟨h16, _, hall⟩ := canon_branch_iff.mp hcT
              obtain ⟨h16', _, hall'⟩ := canon_branch_iff.mp hcU
              injection h with _ h2
              have hpair : ∀ c ∈ cs, ∀ c' ∈ cs', encode H c = encode H c' → c = c' := by
                intro a ha a' ha' he
                have hhta : ht a ≤ n := by
                  have h1 : ht a ≤ htL cs := ht_mem_le ha
                  simp only [ht] at hht
                  omega
                exact ihn a a' hhta (hall a ha) (hall' a' ha') he
              obtain ⟨hcs, hval⟩ := encodeSlots_inj_aux hH cs cs' _ _
                (by rw [h16, h16']) hpair h2
              have hv : v = v' := by
                rcases v with _ | w
                · rcases v' with _ | w'
                  · rfl
                  · injection hval with h1 _
                    cases h1
                · rcases v' with _ | w'
                  · injection hval with h1 _
                    cases h1
                  · injection hval with _ h3
                    injection h3 with _ h4
                    rw [h4]
              rw [hcs, hv]

theorem encode_inj {H : List Nat → List Nat} (hH : Function.Injective H) {T U : Node}
    (hcT : canon T = true) (hcU : canon U = true) (h : encode H T = encode H U) : T = U :=
  encode_inj_fuel hH (ht T) T U (le_refl _) hcT hcU h

theorem digest_inj {H : List Nat → List Nat} (hH : Function.Injective H) {T U : Node}
    (hcT : canon T = true) (hcU : canon U = true) (h : digest H T = digest H U) : T = U :=
  encode_inj hH hcT hcU (hH h)

mutual

/-- Modelled from the spec: the Proof Retainer with the full target set
(section 4.4): every node of the tree is recorded, keyed by its position
(prefix path), in depth-first slot order.  The repository requests proofs
for all inserted keys, so the output is this complete serialization. -/
def proofNodes (H : List Nat → List Nat) : Path → Node → List (Path × List Nat)
  | _, .empty => []
  | pos, .leaf p v => [(pos, encode H (.leaf p v))]
  | pos, .ext p c => (pos, encode H (.ext p c)) :: proofNodes H (pos ++ p) c
  | pos, .branch cs v => (pos, encode H (.branch cs v)) :: proofSlots H pos 0 cs

def proofSlots (H : List Nat → List Nat) : Path → Nat → List Node → List (Path × List Nat)
  | _, _, [] => []
  | pos, i, c :: cs => proofNodes H (pos ++ [mkNib i]) c ++ proofSlots H pos (i + 1) cs

end

mutual

/-- Encodings of every node of a tree, root first, slots depth-first. -/
def encList (H : List Nat → List Nat) : Node → List (List Nat)
  | .empty => []
  | .leaf p v => [encode H (.leaf p v)]
  | .ext p c => encode H (.ext p c) :: encList H c
  | .branch cs v => encode H (.branch cs v) :: encListSlots H cs

def encListSlots (H : List Nat → List Nat) : List Node → List (List Nat)
  | [] => []
  | c :: cs => encList H c ++ encListSlots H cs

end

theorem proofNodes_snd_fuel (H : List Nat → List Nat) : ∀ (n : Nat) (T : Node) (pos : Path),
    ht T ≤ n → (proofNodes H pos T).map Prod.snd = encList H T := by
  intro n
  induction n with
  | zero =>
      intro T pos hht
      match T with
      | .empty => rfl
      | .leaf p v => rfl
      | .ext p c => simp [ht] at hht
      | .branch cs v => simp [ht] at hht
  | succ n ihn =>
      intro T pos hht
      match T with
      | .empty => rfl
      | .leaf p v => rfl
      | .ext p c =>
          have hhtc : ht c ≤ n := by
            simp only [ht] at hht
            omega
          rw [show proofNodes H pos (.ext p c) =
            (pos, encode H (.ext p c)) :: proofNodes H (pos ++ p) c from rfl]
          rw [List.map_cons, ihn c (pos ++ p) hhtc]
          rfl
      | .branch cs v =>
          have hhtcs : ∀ c ∈ cs, ht c ≤ n := by
            intro c hc
            have := ht_mem_le hc
            simp only [ht] at hht
            omega
          have hslots : ∀ (cs0 : List Node), (∀ c ∈ cs0, ht c ≤ n) → ∀ i,
              (proofSlots H pos i cs0).map Prod.snd = encListSlots H cs0 := by
            intro cs0
            induction cs0 with
            | nil => intro _ i; rfl
            | cons c0 cs0 ih0 =>
                intro hall i
                rw [show proofSlots H pos i (c0 :: cs0) =
                  proofNodes H (pos ++ [mkNib i]) c0 ++ proofSlots H pos (i + 1) cs0 from rfl]
                rw [List.map_append, ihn c0 (pos ++ [mkNib i]) (hall c0 (List.mem_cons_self _ _)),
                  ih0 (fun c hc => hall c (List.mem_cons_of_mem _ hc)) (i + 1)]
                rfl
          rw [show proofNodes H pos (.branch cs v) =
            (pos, encode H (.branch cs v)) :: proofSlots H pos 0 cs from rfl]
          rw [List.map_cons, hslots cs hhtcs 0]
          rfl

theorem proofNodes_snd (H : List Nat → List Nat) (T : Node) (pos : Path) :
    (proofNodes H pos T).map Prod.snd = encList H T :=
  proofNodes_snd_fuel H (ht T) T pos (le_refl _)

/-- Strict lexicographic order on nibble paths, a prefix coming first. -/
def pathLt : Path → Path → Bool
  | [], [] => false
  | [], _ :: _ => true
  | _ :: _, [] => false
  | a :: p, b :: q => if a.1 < b.1 then true else if b.1 < a.1 then false else pathLt p q

theorem pathLt_append_proper : ∀ (pos : Path) (a : Nib) (r : Path),
    pathLt pos (pos ++ a :: r) = true
  | [], a, r => rfl
  | x :: pos, a, r => by
      simp only [List.cons_append, pathLt]
      rw [if_neg (by omega), if_neg (by omega)]
      exact pathLt_append_proper pos a r

theorem pathLt_append_lt : ∀ (pos : Path) {a b : Nib}, a.1 < b.1 → ∀ (r s : Path),
    pathLt (pos ++ a :: r) (pos ++ b :: s) = true
  | [], a, b, h, r, s => by
      simp only [List.nil_append, pathLt]
      rw [if_pos h]
  | x :: pos, a, b, h, r, s => by
      simp only [List.cons_append, pathLt]
      rw [if_neg (by omega), if_neg (by omega)]
      exact pathLt_append_lt pos h r s

theorem proofNodes_pos_fuel (H : List Nat → List Nat) : ∀ (n : Nat) (T : Node) (pos : Path),
    ht T ≤ n → ∀ e ∈ proofNodes H pos T, ∃ r, e.1 = pos ++ r := by
  intro n
  induction n with
  | zero =>
      intro T pos hht e he
      match T with
      | .empty => cases he
      | .leaf p v =>
          rcases List.mem_singleton.mp he with rfl
          exact ⟨[], by simp⟩
      | .ext p c => simp [ht] at hht
      | .branch cs v => simp [ht] at hht
  | succ n ihn =>
      intro T pos hht e he
      match T with
      | .empty => cases he
      | .leaf p v =>
          rcases List.mem_singleton.mp he with rfl
          exact ⟨[], by simp⟩
      | .ext p c =>
          have hhtc : ht c ≤ n := by
            simp only [ht] at hht
            omega
          rw [show proofNodes H pos (.ext p c) =
            (pos, encode H (.ext p c)) :: proofNodes H (pos ++ p) c from rfl] at he
          rcases List.mem_cons.mp he with rfl | he
          · exact ⟨[], by simp⟩
          · obtain ⟨r, hr⟩ := ihn c (pos ++ p) hhtc e he
            exact ⟨p ++ r, by rw [hr, List.append_assoc]⟩
      | .branch cs v =>
          have hhtcs : ∀ c ∈ cs, ht c ≤ n := by
            intro c hc
            have := ht_mem_le hc
            simp only [ht] at hht
            omega
          rw [show proofNodes H pos (.branch cs v) =
            (pos, encode H (.branch cs v)) :: proofSlots H pos 0 cs from rfl] at he
          rcases List.mem_cons.mp he with rfl | he
          · exact ⟨[], by simp⟩
          · have hslots : ∀ (cs0 : List Node), (∀ c ∈ cs0, ht c ≤ n) → ∀ i,
                ∀ e ∈ proofSlots H pos i cs0, ∃ j r, e.1 = pos ++ mkNib j :: r := by
              intro cs0
              induction cs0 with
              | nil =>
                  intro _ i e he
                  cases he
              | cons c0 cs0 ih0 =>
                  intro hall i e he
                  rw [show proofSlots H pos i (c0 :: cs0) =
                    proofNodes H (pos ++ [mkNib i]) c0 ++
                      proofSlots H pos (i + 1) cs0 from rfl] at he
                  rcases List.mem_append.mp he with he | he
                  · obtain ⟨r, hr⟩ := ihn c0 (pos ++ [mkNib i])
                      (hall c0 (List.mem_cons_self _ _)) e he
                    exact ⟨i, r, by rw [hr, List.append_assoc]; rfl⟩
                  · exact ih0 (fun c hc => hall c (List.mem_cons_of_mem _ hc)) (i + 1) e he
            obtain ⟨j, r, hr⟩ := hslots cs hhtcs 0 e he
            exact ⟨mkNib j :: r, hr⟩

theorem proofNodes_pos (H : List Nat → List Nat) (T : Node) (pos : Path) :
    ∀ e ∈ proofNodes H pos T, ∃ r, e.1 = pos ++ r :=
  proofNodes_pos_fuel H (ht T) T pos (le_refl _)

theorem proofSlots_pos (H : List Nat → List Nat) : ∀ (cs0 : List Node) (pos : Path) (i : Nat),
    ∀ e ∈ proofSlots H pos i cs0, ∃ j r, i ≤ j ∧ j < i + cs0.length ∧
      e.1 = pos ++ mkNib j :: r := by
  intro cs0
  induction cs0 with
  | nil =>
      intro pos i e he
      cases he
  | cons c0 cs0 ih0 =>
      intro pos i e he
      rw [show proofSlots H pos i (c0 :: cs0) =
        proofNodes H (pos ++ [mkNib i]) c0 ++ proofSlots H pos (i + 1) cs0 from rfl] at he
      rcases List.mem_append.mp he with he | he
      · obtain ⟨r, hr⟩ := proofNodes_pos H c0 (pos ++ [mkNib i]) e he
        exact ⟨i, r, le_refl _, by simp, by rw [hr, List.append_assoc]; rfl⟩
      · obtain ⟨j, r, hij, hjlt, hr⟩ := ih0 pos (i + 1) e he
        exact ⟨j, r, by omega, by simp only [List.length_cons]; omega, hr⟩

theorem proofNodes_sorted_fuel (H : List Nat → List Nat) : ∀ (n : Nat) (T : Node) (pos : Path),
    ht T ≤ n → canon T = true →
    List.Pairwise (fun a b => pathLt a.1 b.1 = true) (proofNodes H pos T) := by
  intro n
  induction n with
  | zero =>
      intro T pos hht hcT
      match T with
      | .empty => exact List.Pairwise.nil
      | .leaf p v => exact List.pairwise_singleton _ _
      | .ext p c => simp [ht] at hht
      | .branch cs v => simp [ht] at hht
  | succ n ihn =>
      intro T pos hht hcT
      match T with
      | .empty => exact List.Pairwise.nil
      | .leaf p v => exact List.pairwise_singleton _ _
      | .ext p c =>
          obtain ⟨_, hpne, hcc⟩ := canon_ext_iff.mp hcT
          have hhtc : ht c ≤ n := by
            simp only [ht] at hht
            omega
          rw [show proofNodes H pos (.ext p c) =
            (pos, encode H (.ext p c)) :: proofNodes H (pos ++ p) c from rfl]
          constructor
          · intro e he
            obtain ⟨r, hr⟩ := proofNodes_pos H c (pos ++ p) e he
            obtain ⟨a, p0, rfl⟩ : ∃ a p0, p = a :: p0 := by
              rcases hpp : p with _ | ⟨a, p0⟩
              · exact absurd hpp hpne
              · exact ⟨a, p0, rfl⟩
            rw [hr, List.append_assoc]
            exact pathLt_append_proper pos a (p0 ++ r)
          · exact ihn c (pos ++ p) hhtc hcc
      | .branch cs v =>
          obtain ⟨h16, _, hall⟩ := canon_branch_iff.mp hcT
          have hhtcs : ∀ c ∈ cs, ht c ≤ n := by
            intro c hc
            have := ht_mem_le hc
            simp only [ht] at hht
            omega
          rw [show proofNodes H pos (.branch cs v) =
            (pos, encode H (.branch cs v)) :: proofSlots H pos 0 cs from rfl]
          constructor
          · intro e he
            obtain ⟨j, r, _, _, hr⟩ := proofSlots_pos H cs pos 0 e he
            rw [hr]
            exact pathLt_append_proper pos (mkNib j) r
          · have hslots : ∀ (cs0 : List Node), (∀ c ∈ cs0, ht c ≤ n ∧ canon c = true) →
                ∀ i, i + cs0.length ≤ 16 →
                List.Pairwise (fun a b => pathLt a.1 b.1 = true) (proofSlots H pos i cs0) := by
              intro cs0
              induction cs0 with
              | nil =>
                  intro _ i _
                  exact List.Pairwise.nil
              | cons c0 cs0 ih0 =>
                  intro hall16 i hle
                  rw [show proofSlots H pos i (c0 :: cs0) =
                    proofNodes H (pos ++ [mkNib i]) c0 ++
                      proofSlots H pos (i + 1) cs0 from rfl]
                  apply List.pairwise_append.mpr
                  refine ⟨ihn c0 (pos ++ [mkNib i]) (hall16 c0 (List.mem_cons_self _ _)).1
                    (hall16 c0 (List.mem_cons_self _ _)).2, ?_, ?_⟩
                  · exact ih0 (fun c hc => hall16 c (List.mem_cons_of_mem _ hc)) (i + 1)
                      (by simp only [List.length_cons] at hle; omega)
                  · intro x hx y hy
                    obtain ⟨rx, hrx⟩ := proofNodes_pos H c0 (pos ++ [mkNib i]) x hx
                    obtain ⟨j, ry, hij, hjlt, hry⟩ := proofSlots_pos H cs0 pos (i + 1) y hy
                    rw [hrx, List.append_assoc, hry]
                    have hilt : i < 16 := by
                      simp only [List.length_cons] at hle
                      omega
                    have hjlt16 : j < 16 := by
                      simp only [List.length_cons] at hle
                      omega
                    have hij' : (mkNib i).1 < (mkNib j).1 := by
                      rw [mkNib_val hilt, mkNib_val hjlt16]
                      omega
                    exact pathLt_append_lt pos hij' rx ry
            exact hslots cs (fun c hc => ⟨hhtcs c hc, hall c hc⟩) 0 (by rw [h16])

theorem proofNodes_sorted (H : List Nat → List Nat) (T : Node) (pos : Path)
    (hcT : canon T = true) :
    List.Pairwise (fun a b => pathLt a.1 b.1 = true) (proofNodes H pos T) :=
  proofNodes_sorted_fuel H (ht T) T pos (le_refl _) hcT

theorem take_append_self {α : Type} : ∀ (p r : List α), (p ++ r).take p.length = p
  | [], r => rfl
  | x :: p, r => by
      simp only [List.cons_append, List.length_cons, List.take_succ_cons]
      rw [take_append_self p r]

/-- Reconstruction errors (section 7 of the design). -/
inductive RErr where
  | missingNode : RErr
  | malformedEncoding : RErr
deriving DecidableEq, Repr

instance : DecidableEq (Except RErr Node) := fun a b =>
  match a, b with
  | .ok x, .ok y =>
      match decEq x y with
      | isTrue h => isTrue (by rw [h])
      | isFalse h => isFalse (fun hc => by cases hc; exact h rfl)
  | .ok _, .error _ => isFalse (fun hc => Except.noConfusion hc)
  | .error _, .ok _ => isFalse (fun hc => Except.noConfusion hc)
  | .error e, .error e' =>
      match decEq e e' with
      | isTrue h => isTrue (by rw [h])
      | isFalse h => isFalse (fun hc => by cases hc; exact h rfl)

/-- Decode a list of raw nibble values back into a nibble path. -/
def nibsDec : List Nat → Option Path
  | [] => some []
  | n :: ns => if h : n < 16 then (nibsDec ns).map (fun p => ⟨n, h⟩ :: p) else none

/-- Decode a hex-prefix block back into the leaf flag and the nibble path,
checking the odd-length bit. -/
def hpDec (bs : List Nat) : Option (Bool × Path) :=
  match bs with
  | [] => none
  | f :: ns =>
      if f < 4 then
        match nibsDec ns with
        | some p =>
            if (if p.length % 2 = 1 then 1 else 0) = f % 2 then some (2 ≤ f, p) else none
        | none => none
      else none

theorem nibsDec_map_val : ∀ p : Path, nibsDec (p.map Fin.val) = some p
  | [] => rfl
  | a :: p => by
      simp only [List.map_cons, nibsDec, a.2, dite_true, nibsDec_map_val p, Option.map_some]
      rfl

theorem hpDec_hpEnc (b : Bool) (p : Path) : hpDec (hpEnc b p) = some (b, p) := by
  rcases b with _ | _ <;> by_cases hpar : p.length % 2 = 1 <;>
    simp [hpEnc, hpDec, hpar, nibsDec_map_val]

mutual

/-- Modelled from the spec: the Reconstructor decoding of one node blob
(section 4.5): decode per the Codec rules, resolving each hash reference by
locating a blob with the matching digest in the collection; a missing
match is `MissingNode`, an undecodable blob `MalformedEncoding`.  Fuel
bounds the recursion depth; `reconstruct` supplies enough. -/
def decodeNode (H : List Nat → List Nat) (blobs : List (List Nat)) :
    Nat → List Nat → Except RErr Node
  | _, [128] => .ok .empty
  | fuel + 1, 0 :: n :: rest =>
      if rest.length < n then .error .malformedEncoding
      else
        match hpDec (rest.take n) with
        | some (true, p) =>
            (match rest.drop n with
             | m :: vs => if vs.length = m then .ok (.leaf p vs) else .error .malformedEncoding
             | [] => .error .malformedEncoding)
        | _ => .error .malformedEncoding
  | fuel + 1, 1 :: n :: rest =>
      if rest.length < n then .error .malformedEncoding
      else
        match hpDec (rest.take n) with
        | some (false, p) =>
            (match decodeRef H blobs fuel (rest.drop n) with
             | .ok (c, []) => .ok (.ext p c)
             | .ok (_, _ :: _) => .error .malformedEncoding
             | .error e => .error e)
        | _ => .error .malformedEncoding
  | fuel + 1, 2 :: rest =>
      (match decodeRefs H blobs fuel 16 rest with
       | .ok (cs, [0]) => .ok (.branch cs none)
       | .ok (cs, 1 :: m :: vs) =>
           if vs.length = m then .ok (.branch cs (some vs)) else .error .malformedEncoding
       | .ok (_, _) => .error .malformedEncoding
       | .error e => .error e)
  | _, _ => .error .malformedEncoding
termination_by fuel bs => (fuel, 0, 0)

/-- Decode one self-delimiting child reference from a stream: an empty
marker, an inline encoding, or a hash reference looked up in the blobs. -/
def decodeRef (H : List Nat → List Nat) (blobs : List (List Nat)) :
    Nat → List Nat → Except RErr (Node × List Nat)
  | _, 0 :: rest => .ok (.empty, rest)
  | fuel, 1 :: l :: rest =>
      if rest.length < l then .error .malformedEncoding
      else
        match decodeNode H blobs fuel (rest.take l) with
        | .ok c => .ok (c, rest.drop l)
        | .error e => .error e
  | fuel, 2 :: l :: rest =>
      if rest.length < l then .error .malformedEncoding
      else
        match blobs.find? (fun b => decide (H b = rest.take l)) with
        | some b =>
            (match decodeNode H blobs fuel b with
             | .ok c => .ok (c, rest.drop l)
             | .error e => .error e)
        | none => .error .missingNode
  | _, _ => .error .malformedEncoding
termination_by fuel bs => (fuel, 1, 0)

/-- Decode `k` consecutive child references from a stream. -/
def decodeRefs (H : List Nat → List Nat) (blobs : List (List Nat)) :
    Nat → Nat → List Nat → Except RErr (List Node × List Nat)
  | _, 0, rest => .ok ([], rest)
  | fuel, k + 1, rest =>
      match decodeRef H blobs fuel rest with
      | .ok (c, rest2) =>
          (match decodeRefs H blobs fuel k rest2 with
           | .ok (cs, rest3) => .ok (c :: cs, rest3)
           | .error e => .error e)
      | .error e => .error e
termination_by fuel k bs => (fuel, 2, k)

end

/-- Modelled from the spec: the Reconstructor (section 4.5): decode the
root blob (the first of the ordered proof output), resolving hash
references against the whole collection; an empty collection reconstructs
the empty trie.  It needs no access to the original key/value pairs. -/
def reconstruct (H : List Nat → List Nat) (blobs : List (List Nat)) : Except RErr Node :=
  match blobs with
  | [] => .ok .empty
  | b :: _ => decodeNode H blobs (blobs.length + 1) b

theorem encode_mem_encList {H : List Nat → List Nat} {T : Node} (h : T ≠ .empty) :
    encode H T ∈ encList H T := by
  match T with
  | .empty => exact absurd rfl h
  | .leaf p v => exact List.mem_singleton_self _
  | .ext p c => exact List.mem_cons_self _ _
  | .branch cs v => exact List.mem_cons_self _ _

theorem encList_sub_ext {H : List Nat → List Nat} (p : Path) (c : Node) :
    ∀ e ∈ encList H c, e ∈ encList H (.ext p c) := by
  intro e he
  rw [show encList H (.ext p c) = encode H (.ext p c) :: encList H c from rfl]
  exact List.mem_cons_of_mem _ he

theorem encList_slots_sub {H : List Nat → List Nat} :
    ∀ {cs : List Node} {c : Node}, c ∈ cs → ∀ e ∈ encList H c, e ∈ encListSlots H cs := by
  intro cs
  induction cs with
  | nil =>
      intro c hc
      cases hc
  | cons c0 cs ih =>
      intro c hc e he
      rw [show encListSlots H (c0 :: cs) = encList H c0 ++ encListSlots H cs from rfl]
      rcases List.mem_cons.mp hc with rfl | hc
      · exact List.mem_append_left _ he
      · exact List.mem_append_right _ (ih hc e he)

theorem encList_sub_branch {H : List Nat → List Nat} {cs : List Node} {v : Option Bytes}
    {c : Node} (hc : c ∈ cs) : ∀ e ∈ encList H c, e ∈ encList H (.branch cs v) := by
  intro e he
  rw [show encList H (.branch cs v) = encode H (.branch cs v) :: encListSlots H cs from rfl]
  exact List.mem_cons_of_mem _ (encList_slots_sub hc e he)

theorem decodeRef_mkRef {H : List Nat → List Nat} (hH : Function.Injective H)
    (blobs : List (List Nat)) (fuel : Nat) {c : Node} (rest : List Nat)
    (hdec : c ≠ .empty → decodeNode H blobs fuel (encode H c) = .ok c)
    (hmem : c ≠ .empty → encode H c ∈ blobs) :
    decodeRef H blobs fuel (mkRef H c (encode H c) ++ rest) = .ok (c, rest) := by
  by_cases hc : c = .empty
  · subst hc
    rw [show mkRef H .empty (encode H .empty) = [0] from rfl]
    rw [show ([0] ++ rest : List Nat) = 0 :: rest from rfl]
    simp [decodeRef]
  · rw [mkRef_ne_empty H hc]
    by_cases hlt : (encode H c).length < 32
    · rw [if_pos hlt]
      rw [show ((1 :: (encode H c).length :: encode H c) ++ rest : List Nat) =
        1 :: (encode H c).length :: (encode H c ++ rest) from rfl]
      simp only [decodeRef]
      rw [if_neg (by rw [List.length_append]; omega)]
      rw [take_append_self, hdec hc, drop_append_self]
    · rw [if_neg hlt]
      rw [show ((2 :: (H (encode H c)).length :: H (encode H c)) ++ rest : List Nat) =
        2 :: (H (encode H c)).length :: (H (encode H c) ++ rest) from rfl]
      simp only [decodeRef]
      rw [if_neg (by rw [List.length_append]; omega)]
      rw [take_append_self]
      rcases hfind : blobs.find? (fun b => decide (H b = H (encode H c))) with _ | b
      · exfalso
        have := List.find?_eq_none.mp hfind (encode H c) (hmem hc)
        simp at this
      · have hpb := List.find?_some hfind
        have hbe : b = encode H c := hH (of_decide_eq_true hpb)
        rw [hbe]
        simp only [hdec hc, drop_append_self]

theorem decodeRefs_encodeSlots {H : List Nat → List Nat} (hH : Function.Injective H)
    (blobs : List (List Nat)) (fuel : Nat) :
    ∀ (cs : List Node) (t : List Nat),
    (∀ c ∈ cs, c ≠ .empty →
      decodeNode H blobs fuel (encode H c) = .ok c ∧ encode H c ∈ blobs) →
    decodeRefs H blobs fuel cs.length (encodeSlots H cs ++ t) = .ok (cs, t)
  | [], t, _ => by
      rw [show encodeSlots H [] = ([] : List Nat) from rfl, List.nil_append]
      simp [decodeRefs]
  | c :: cs, t, hchild => by
      rw [encodeSlots_cons, List.append_assoc, show (c :: cs).length = cs.length + 1 from rfl]
      simp only [decodeRefs]
      rw [decodeRef_mkRef hH blobs fuel _
        (fun hne => (hchild c (List.mem_cons_self _ _) hne).1)
        (fun hne => (hchild c (List.mem_cons_self _ _) hne).2)]
      simp only [decodeRefs_encodeSlots hH blobs fuel cs t
        (fun a ha hne => hchild a (List.mem_cons_of_mem _ ha) hne)]

theorem decode_encode {H : List Nat → List Nat} (hH : Function.Injective H)
    (blobs : List (List Nat)) :
    ∀ (fuel : Nat) (T : Node), ht T < fuel → canon T = true →
    (∀ e ∈ encList H T, e ∈ blobs) →
    decodeNode H blobs fuel (encode H T) = .ok T := by
  intro fuel
  induction fuel with
  | zero =>
      intro T hht
      omega
  | succ fuel ihf =>
      intro T hht hcT hsub
      match T with
      | .empty =>
          rw [show encode H .empty = [128] from rfl]
          simp [decodeNode]
      | .leaf p v =>
          rw [show encode H (.leaf p v) =
            0 :: (hpEnc true p).length :: (hpEnc true p ++ (v.length :: v)) from rfl]
          simp only [decodeNode]
          rw [if_neg (by rw [List.length_append]; simp only [List.length_cons]; omega)]
          rw [take_append_self, hpDec_hpEnc, drop_append_self]
          simp
      | .ext p c =>
          obtain ⟨⟨cse, ve, hbr⟩, hpne, hcc⟩ := canon_ext_iff.mp hcT
          have hcne : c ≠ .empty := by
            rw [hbr]
            exact fun hx => Node.noConfusion hx
          have hhtc : ht c < fuel := by
            simp only [ht] at hht
            omega
          have hsubc : ∀ e ∈ encList H c, e ∈ blobs :=
            fun e he => hsub e (encList_sub_ext p c e he)
          rw [show encode H (.ext p c) =
            1 :: (hpEnc false p).length :: (hpEnc false p ++ mkRef H c (encode H c)) from rfl]
          simp only [decodeNode]
          have hlenref : 1 ≤ (mkRef H c (encode H c)).length := by
            rcases mkRef_shape H c (encode H c) with hsh | ⟨tg, l, pl, _, hsh, _⟩
            · rw [hsh]
              simp
            · rw [hsh]
              simp
          rw [if_neg (by rw [List.length_append]; omega)]
          rw [take_append_self, hpDec_hpEnc, drop_append_self]
          rw [show mkRef H c (encode H c) = mkRef H c (encode H c) ++ [] by simp]
          rw [decodeRef_mkRef hH blobs fuel []
            (fun _ => ihf c hhtc hcc hsubc)
            (fun hne => hsubc (encode H c) (encode_mem_encList hne))]
      | .branch cs v =>
          obtain ⟨h16, _, hall⟩ := canon_branch_iff.mp hcT
          have hchild : ∀ c ∈ cs, c ≠ .empty →
              decodeNode H blobs fuel (encode H c) = .ok c ∧ encode H c ∈ blobs := by
            intro c hc hne
            have hhtc : ht c < fuel := by
              have := ht_mem_le hc
              simp only [ht] at hht
              omega
            have hsubc : ∀ e ∈ encList H c, e ∈ blobs :=
              fun e he => hsub e (encList_sub_branch hc e he)
            exact ⟨ihf c hhtc (hall c hc) hsubc, hsubc (encode H c) (encode_mem_encList hne)⟩
          have hrefs := decodeRefs_encodeSlots hH blobs fuel cs
            (match v with
             | none => [0]
             | some w => 1 :: w.length :: w) hchild
          rw [h16] at hrefs
          rcases v with _ | w
          · rw [show encode H (.branch cs none) = 2 :: (encodeSlots H cs ++ [0]) from rfl]
            simp only [decodeNode]
            rw [hrefs]
          · rw [show encode H (.branch cs (some w)) =
              2 :: (encodeSlots H cs ++ (1 :: w.length :: w)) from rfl]
            simp only [decodeNode]
            rw [hrefs]
            simp

theorem encList_head (H : List Nat → List Nat) {T : Node} (h : T ≠ .empty) :
    ∃ rest, encList H T = encode H T :: rest := by
  match T with
  | .empty => exact absurd rfl h
  | .leaf p v => exact ⟨[], rfl⟩
  | .ext p c => exact ⟨encList H c, rfl⟩
  | .branch cs v => exact ⟨encListSlots H cs, rfl⟩

theorem encList_length_le_slots (H : List Nat → List Nat) :
    ∀ {cs : List Node} {c : Node}, c ∈ cs →
    (encList H c).length ≤ (encListSlots H cs).length := by
  intro cs
  induction cs with
  | nil =>
      intro c hc
      cases hc
  | cons c0 cs ih =>
      intro c hc
      rw [show encListSlots H (c0 :: cs) = encList H c0 ++ encListSlots H cs from rfl,
        List.length_append]
      rcases List.mem_cons.mp hc with rfl | hc
      · omega
      · have := ih hc
        omega

theorem ht_lt_encList_fuel (H : List Nat → List Nat) : ∀ (n : Nat) (T : Node), ht T ≤ n →
    canon T = true → T ≠ .empty → ht T < (encList H T).length := by
  intro n
  induction n with
  | zero =>
      intro T hht hcT hne
      match T with
      | .empty => exact absurd rfl hne
      | .leaf p v => exact Nat.zero_lt_one
      | .ext p c => simp [ht] at hht
      | .branch cs v => simp [ht] at hht
  | succ n ihn =>
      intro T hht hcT hne
      match T with
      | .empty => exact absurd rfl hne
      | .leaf p v => exact Nat.zero_lt_one
      | .ext p c =>
          obtain ⟨⟨cse, ve, hbr⟩, _, hcc⟩ := canon_ext_iff.mp hcT
          have hcne : c ≠ .empty := by
            rw [hbr]
            exact fun hx => Node.noConfusion hx
          have h1 := ihn c (by simp only [ht] at hht; omega) hcc hcne
          rw [show encList H (.ext p c) = encode H (.ext p c) :: encList H c from rfl]
          simp only [ht, List.length_cons]
          omega
      | .branch cs v =>
          obtain ⟨h16, hcnt, hall⟩ := canon_branch_iff.mp hcT
          have hone : 1 ≤ countNE cs := by
            rcases hcnt with h | h
            · omega
            · omega
          obtain ⟨j, hj, hjne⟩ := exists_one_of_countNE cs hone
          have hjmem : cs.getD j .empty ∈ cs := by
            rw [List.getD_eq_getElem _ _ hj]
            exact List.getElem_mem hj
          have hjnem : cs.getD j .empty ≠ .empty := by
            intro hcon
            rw [hcon] at hjne
            simp [isEmptyN] at hjne
          have hslot1 : 1 ≤ (encListSlots H cs).length := by
            have h1 := ihn (cs.getD j .empty)
              (by have := ht_mem_le hjmem; simp only [ht] at hht; omega)
              (hall _ hjmem) hjnem
            have h2 := encList_length_le_slots H hjmem
            omega
          have hmax : ∀ c ∈ cs, ht c < (encListSlots H cs).length := by
            intro c hc
            by_cases hce : c = .empty
            · rw [hce]
              simp only [ht]
              omega
            · have h1 := ihn c
                (by have := ht_mem_le hc; simp only [ht] at hht; omega) (hall c hc) hce
              have h2 := encList_length_le_slots H hc
              omega
          have hhtl : ∀ (cs0 : List Node), (∀ c ∈ cs0, ht c < (encListSlots H cs).length) →
              htL cs0 < (encListSlots H cs).length ∨ cs0 = [] := by
            intro cs0
            induction cs0 with
            | nil => exact fun _ => Or.inr rfl
            | cons c0 cs0 ih0 =>
                intro hall0
                left
                rcases ih0 (fun c hc => hall0 c (List.mem_cons_of_mem _ hc)) with h | rfl
                · have := hall0 c0 (List.mem_cons_self _ _)
                  simp only [htL]
                  omega
                · have := hall0 c0 (List.mem_cons_self _ _)
                  simp only [htL]
                  omega
          rw [show encList H (.branch cs v) =
            encode H (.branch cs v) :: encListSlots H cs from rfl]
          simp only [ht, List.length_cons]
          rcases hhtl cs hmax with h | rfl
          · omega
          · simp at h16

theorem reconstruct_proofNodes {H : List Nat → List Nat} (hH : Function.Injective H)
    {T : Node} (hcT : canon T = true) :
    reconstruct H ((proofNodes H [] T).map Prod.snd) = .ok T := by
  by_cases hT : T = .empty
  · subst hT
    rfl
  · rw [proofNodes_snd]
    obtain ⟨rest, hhead⟩ := encList_head H hT
    rw [hhead]
    rw [show reconstruct H (encode H T :: rest) =
      decodeNode H (encode H T :: rest) ((encode H T :: rest).length + 1)
        (encode H T) from rfl]
    refine decode_encode hH (encode H T :: rest) ((encode H T :: rest).length + 1) T
      ?_ hcT (fun e he => hhead ▸ he)
    have h1 := ht_lt_encList_fuel H (ht T) T (le_refl _) hcT hT
    rw [hhead] at h1
    omega

/-- Unpack a byte key into nibbles, most-significant first (the sources
call alloy_trie Nibbles unpack). -/
def unpack (k : List Byte) : Path :=
  k.bind (fun b => [⟨b.1 / 16, by omega⟩, ⟨b.1 % 16, Nat.mod_lt _ (by omega)⟩])

theorem unpack_inj : Function.Injective unpack := by
  intro k k' h
  induction k generalizing k' with
  | nil =>
      cases k' with
      | nil => rfl
      | cons b k' => simp [unpack] at h
  | cons b k ih =>
      cases k' with
      | nil => simp [unpack] at h
      | cons b' k' =>
          simp only [unpack, List.cons_bind] at h
          injection h with h1 h2
          injection h2 with h3 h4
          have hb : b = b' := by
            have e1 : b.1 / 16 = b'.1 / 16 := congrArg Fin.val h1
            have e2 : b.1 % 16 = b'.1 % 16 := congrArg Fin.val h3
            have d1 := Nat.div_add_mod b.1 16
            have d2 := Nat.div_add_mod b'.1 16
            exact Fin.ext (by omega)
          rw [hb, ih h4]

/-- Stable insertion used by the sort: a new element goes after every
element it is not strictly smaller than, matching a stable sort. -/
def insertS {α : Type} (le : α → α → Bool) (x : α) : List α → List α
  | [] => [x]
  | y :: ys => if le y x then y :: insertS le x ys else x :: y :: ys

/-- Stable sort by a boolean comparator (the sources use Rust's stable
sort_by / sort_by_key). -/
def ssort {α : Type} (le : α → α → Bool) (es : List α) : List α :=
  es.foldl (fun acc x => insertS le x acc) []

theorem insertS_perm {α : Type} (le : α → α → Bool) (x : α) :
    ∀ l : List α, (insertS le x l).Perm (x :: l)
  | [] => List.Perm.refl _
  | y :: ys => by
      unfold insertS
      by_cases h : le y x
      · rw [if_pos h]
        exact ((insertS_perm le x ys).cons y).trans (List.Perm.swap x y ys)
      · rw [if_neg h]

theorem ssort_perm {α : Type} (le : α → α → Bool) (es : List α) :
    (ssort le es).Perm es := by
  have key : ∀ (l acc : List α), (l.foldl (fun acc x => insertS le x acc) acc).Perm (acc ++ l) := by
    intro l
    induction l with
    | nil => intro acc; simp
    | cons x l ih =>
        intro acc
        have h1 := ih (insertS le x acc)
        have h2 : (insertS le x acc ++ l).Perm (acc ++ x :: l) := by
          have h3 : (insertS le x acc).Perm (x :: acc) := insertS_perm le x acc
          have h4 : (insertS le x acc ++ l).Perm ((x :: acc) ++ l) := h3.append_right l
          have h5 : ((x :: acc) ++ l : List α) = x :: (acc ++ l) := rfl
          rw [h5] at h4
          exact h4.trans List.perm_middle.symm
        exact h1.trans h2
  simpa using key es []

/-- Lexicographic boolean order on nibble paths (Ord on alloy Nibbles). -/
def pathLe : Path → Path → Bool
  | [], _ => true
  | _ :: _, [] => false
  | a :: p, b :: q => if a.1 < b.1 then true else if b.1 < a.1 then false else pathLe p q

/-- Lexicographic boolean order on byte keys (Ord on the key type). -/
def byteLe : List Byte → List Byte → Bool
  | [], _ => true
  | _ :: _, [] => false
  | a :: p, b :: q => if a.1 < b.1 then true else if b.1 < a.1 then false else byteLe p q

/-- Translated from src/src/lib.rs (build_alloy_trie_with_proof): sort the
items by their unpacked nibble paths, build the trie over all items with a
proof retainer targeting every inserted key, compute the root, and return
the root digest with the retained proof-node encodings in sorted order.
The trie engine it calls into is the spec-modelled core above. -/
def build_alloy_trie_with_proof (H : List Nat → List Nat)
    (items : List (List Byte × Bytes)) : List Nat × List (List Nat) :=
  let sorted_items := ssort (fun a b => pathLe (unpack a.1) (unpack b.1)) items
  let t := build (sorted_items.map (fun e => (unpack e.1, e.2)))
  (digest H t, (proofNodes H [] t).map Prod.snd)

/-- Translated from src/src/main.rs (alloy_hash_with_rlp): the identical
pipeline, except the items are sorted by raw byte-key order (Ord on the
key type) instead of unpacked nibble order. -/
def alloy_hash_with_rlp (H : List Nat → List Nat)
    (items : List (List Byte × Bytes)) : List Nat × List (List Nat) :=
  let sorted_items := ssort (fun a b => byteLe a.1 b.1) items
  let t := build (sorted_items.map (fun e => (unpack e.1, e.2)))
  (digest H t, (proofNodes H [] t).map Prod.snd)

/-- Errors of the Builder input contract (section 7 of the design). -/
inductive BErr where
  | orderingViolation : BErr
  | duplicateKey : BErr
deriving DecidableEq, Repr

/-- Modelled from the spec: input validation of the Builder (section 4.2):
the entries must be strictly increasing in nibble-path order; an equal
adjacent pair fails with DuplicateKey, an out-of-order adjacent pair with
OrderingViolation. -/
def checkInput : List Entry → Except BErr Unit
  | [] => .ok ()
  | [_] => .ok ()
  | e1 :: e2 :: es =>
      if e1.1 = e2.1 then .error .duplicateKey
      else if pathLt e1.1 e2.1 then checkInput (e2 :: es)
      else .error .orderingViolation

/-- Modelled from the spec: the checked Builder entry point, which returns
no partial tree when validation fails. -/
def buildChecked (es : List Entry) : Except BErr Node :=
  (checkInput es).map (fun _ => build es)

/-- The key/value pair with its key unpacked into a nibble path. -/
def unpackPair (e : List Byte × Bytes) : Entry := (unpack e.1, e.2)

/-- The tree that build_alloy_trie_with_proof constructs internally: the
Builder over the nibble-sorted, unpacked items. -/
def alloyTree (items : List (List Byte × Bytes)) : Node :=
  build ((ssort (fun a b => pathLe (unpack a.1) (unpack b.1)) items).map unpackPair)

instance : DecidableEq (Except BErr Node) := fun a b =>
  match a, b with
  | .error e1, .error e2 =>
      match decEq e1 e2 with
      | isTrue h => isTrue (by rw [h])
      | isFalse h => isFalse (fun hc => h (by injection hc))
  | .error _, .ok _ => isFalse (fun hc => Except.noConfusion hc)
  | .ok _, .error _ => isFalse (fun hc => Except.noConfusion hc)
  | .ok t1, .ok t2 =>
      match decEq t1 t2 with
      | isTrue h => isTrue (by rw [h])
      | isFalse h => isFalse (fun hc => h (by injection hc))

theorem nodup_unpacked {items : List (List Byte × Bytes)}
    (hnd : (items.map Prod.fst).Nodup) :
    ((items.map unpackPair).map Prod.fst).Nodup := by
  have heq : (items.map unpackPair).map Prod.fst = (items.map Prod.fst).map unpack := by
    rw [List.map_map, List.map_map]; rfl
  rw [heq]
  exact hnd.map unpack_inj

theorem lookupKey_perm {es es' : List Entry} (hperm : es.Perm es')
    (hnd : (es.map Prod.fst).Nodup) (k : Path) :
    lookupKey es k = lookupKey es' k := by
  have hnd' : (es'.map Prod.fst).Nodup := ((hperm.map Prod.fst).nodup_iff).mp hnd
  rcases h : lookupKey es k with _ | v
  · symm
    rw [lookupKey_eq_none_iff] at h ⊢
    intro hc
    exact h ((hperm.map Prod.fst).mem_iff.mpr hc)
  · exact (lookupKey_of_mem hnd' (hperm.mem_iff.mp (lookupKey_mem h))).symm

theorem alloyTree_spec {items : List (List Byte × Bytes)}
    (hnd : (items.map Prod.fst).Nodup) :
    canon (alloyTree items) = true ∧
      ∀ q, look (alloyTree items) q = lookupKey (items.map unpackPair) q := by
  have hperm :
      ((ssort (fun a b => pathLe (unpack a.1) (unpack b.1)) items).map unpackPair).Perm
        (items.map unpackPair) :=
    (ssort_perm _ items).map unpackPair
  have hndU : ((items.map unpackPair).map Prod.fst).Nodup := nodup_unpacked hnd
  have hndS :
      (((ssort (fun a b => pathLe (unpack a.1) (unpack b.1)) items).map unpackPair).map
        Prod.fst).Nodup :=
    ((hperm.map Prod.fst).nodup_iff).mpr hndU
  refine ⟨canon_build hndS, fun q => ?_⟩
  rw [show alloyTree items =
    build ((ssort (fun a b => pathLe (unpack a.1) (unpack b.1)) items).map unpackPair) from rfl]
  rw [look_build hndS q]
  exact lookupKey_perm hperm hndS q

theorem lookupKey_append_single {es : List Entry} {p : Path} (v : Bytes)
    (h : p ∉ es.map Prod.fst) : lookupKey (es ++ [(p, v)]) p = some v := by
  induction es with
  | nil => simp [lookupKey]
  | cons e es ih =>
      rw [List.map_cons] at h
      have h1 : p ≠ e.1 := fun hc => h (List.mem_cons.mpr (Or.inl hc))
      have h2 : p ∉ es.map Prod.fst := fun hc => h (List.mem_cons.mpr (Or.inr hc))
      rw [List.cons_append, lookupKey, if_neg h1]
      exact ih h2

theorem lookupKey_append_single_ne {es : List Entry} {p : Path} (v : Bytes) {q : Path}
    (h : q ≠ p) : lookupKey (es ++ [(p, v)]) q = lookupKey es q := by
  induction es with
  | nil => simp [lookupKey, h]
  | cons e es ih =>
      rw [List.cons_append, lookupKey, lookupKey]
      by_cases hq : q = e.1
      · rw [if_pos hq, if_pos hq]
      · rw [if_neg hq, if_neg hq]
        exact ih

theorem nodup_append_single {items : List (List Byte × Bytes)} {k : List Byte} (v : Bytes)
    (hnd : (items.map Prod.fst).Nodup) (hk : k ∉ items.map Prod.fst) :
    ((items ++ [(k, v)]).map Prod.fst).Nodup := by
  rw [List.map_append, List.map_cons, List.map_nil, List.nodup_append]
  refine ⟨hnd, List.nodup_singleton _, fun a ha hb => ?_⟩
  rcases List.mem_singleton.mp hb with rfl
  exact hk ha

theorem unpack_not_mem {items : List (List Byte × Bytes)} {k : List Byte}
    (hk : k ∉ items.map Prod.fst) :
    unpack k ∉ (items.map unpackPair).map Prod.fst := by
  intro hc
  rw [List.map_map] at hc
  obtain ⟨a, ha, hae⟩ := List.mem_map.mp hc
  have hae' : unpack a.1 = unpack k := hae
  have hak : a.1 = k := unpack_inj hae'
  exact hk (hak ▸ List.mem_map_of_mem Prod.fst ha)

theorem map_unpackPair_append {items : List (List Byte × Bytes)} {k : List Byte} {v : Bytes} :
    (items ++ [(k, v)]).map unpackPair = items.map unpackPair ++ [(unpack k, v)] := by
  rw [List.map_append]
  rfl

theorem byteLe_pathLe : ∀ (k1 k2 : List Byte),
    byteLe k1 k2 = pathLe (unpack k1) (unpack k2)
  | [], [] => rfl
  | [], _ :: _ => rfl
  | _ :: _, [] => rfl
  | a :: t, b :: s => by
      have hu1 : unpack (a :: t) =
          (⟨a.1 / 16, by omega⟩ : Nib) :: (⟨a.1 % 16, Nat.mod_lt _ (by omega)⟩ : Nib) ::
            unpack t := rfl
      have hu2 : unpack (b :: s) =
          (⟨b.1 / 16, by omega⟩ : Nib) :: (⟨b.1 % 16, Nat.mod_lt _ (by omega)⟩ : Nib) ::
            unpack s := rfl
      rw [hu1, hu2]
      show (if a.1 < b.1 then true else if b.1 < a.1 then false else byteLe t s) =
        (if a.1 / 16 < b.1 / 16 then true else if b.1 / 16 < a.1 / 16 then false
          else if a.1 % 16 < b.1 % 16 then true else if b.1 % 16 < a.1 % 16 then false
          else pathLe (unpack t) (unpack s))
      have d1 := Nat.div_add_mod a.1 16
      have d2 := Nat.div_add_mod b.1 16
      have hm1 : a.1 % 16 < 16 := Nat.mod_lt _ (by omega)
      have hm2 : b.1 % 16 < 16 := Nat.mod_lt _ (by omega)
      by_cases h1 : a.1 / 16 < b.1 / 16
      · rw [if_pos (by omega), if_pos h1]
      · by_cases h2 : b.1 / 16 < a.1 / 16
        · rw [if_neg (by omega), if_pos (by omega), if_neg h1, if_pos h2]
        · by_cases h3 : a.1 % 16 < b.1 % 16
          · rw [if_pos (by omega), if_neg h1, if_neg h2, if_pos h3]
          · by_cases h4 : b.1 % 16 < a.1 % 16
            · rw [if_neg (by omega), if_pos (by omega), if_neg h1, if_neg h2, if_neg h3,
                if_pos h4]
            · rw [if_neg (by omega), if_neg (by omega), if_neg h1, if_neg h2, if_neg h3,
                if_neg h4]
              exact byteLe_pathLe t s

theorem pathLt_irrefl : ∀ p : Path, pathLt p p = false
  | [] => rfl
  | a :: p => by
      show (if a.1 < a.1 then true else if a.1 < a.1 then false else pathLt p p) = false
      rw [if_neg (by omega), if_neg (by omega)]
      exact pathLt_irrefl p

theorem checkInput_ok_iff : ∀ (es : List Entry),
    checkInput es = .ok () ↔ List.Chain' (fun e1 e2 => pathLt e1.1 e2.1 = true) es
  | [] => by simp [checkInput]
  | [e] => by simp [checkInput]
  | e1 :: e2 :: es => by
      rw [show checkInput (e1 :: e2 :: es) =
        (if e1.1 = e2.1 then Except.error BErr.duplicateKey
         else if pathLt e1.1 e2.1 = true then checkInput (e2 :: es)
         else Except.error BErr.orderingViolation) from rfl]
      by_cases h1 : e1.1 = e2.1
      · rw [if_pos h1]
        constructor
        · intro h
          cases h
        · intro h
          rw [List.chain'_cons] at h
          have hf := h.1
          rw [h1, pathLt_irrefl] at hf
          cases hf
      · rw [if_neg h1]
        by_cases h2 : pathLt e1.1 e2.1 = true
        · rw [if_pos h2, checkInput_ok_iff (e2 :: es), List.chain'_cons]
          exact ⟨fun h => ⟨h2, h⟩, fun h => h.2⟩
        · rw [if_neg h2]
          constructor
          · intro h
            cases h
          · intro h
            rw [List.chain'_cons] at h
            exact absurd h.1 h2

theorem checkInput_error : ∀ (es : List Entry) (err : BErr),
    checkInput es = .error err →
    ∃ l e1 e2 r, es = l ++ e1 :: e2 :: r ∧
      (if err = BErr.duplicateKey then e1.1 = e2.1
       else e1.1 ≠ e2.1 ∧ pathLt e1.1 e2.1 = false)
  | [], _ => by
      intro h
      cases h
  | [_], _ => by
      intro h
      cases h
  | e1 :: e2 :: es, err => by
      intro h
      rw [show checkInput (e1 :: e2 :: es) =
        (if e1.1 = e2.1 then Except.error BErr.duplicateKey
         else if pathLt e1.1 e2.1 = true then checkInput (e2 :: es)
         else Except.error BErr.orderingViolation) from rfl] at h
      by_cases h1 : e1.1 = e2.1
      · rw [if_pos h1] at h
        injection h with h
        refine ⟨[], e1, e2, es, rfl, ?_⟩
        rw [← h, if_pos rfl]
        exact h1
      · rw [if_neg h1] at h
        by_cases h2 : pathLt e1.1 e2.1 = true
        · rw [if_pos h2] at h
          obtain ⟨l, f1, f2, r, heq, hprop⟩ := checkInput_error (e2 :: es) err h
          exact ⟨e1 :: l, f1, f2, r, by rw [List.cons_append, heq], hprop⟩
        · rw [if_neg h2] at h
          injection h with h
          refine ⟨[], e1, e2, es, rfl, ?_⟩
          rw [← h, if_neg (by decide)]
          exact ⟨h1, Bool.not_eq_true _ ▸ h2⟩

/-- C1: for every starting key set with unique keys and every absent key k,
materializing a tree from the full-proof output of building the set together
with k and then removing k succeeds (remove returns true) and yields a tree
whose recomputed root digest equals the root digest of building the set
without k directly; the six collapse cases of the removal table are
instances of this statement. -/
theorem C1_remove_inverse {H : List Nat → List Nat} (hH : Function.Injective H)
    (items : List (List Byte × Bytes)) (k : List Byte) (v : Bytes)
    (hnd : (items.map Prod.fst).Nodup) (hk : k ∉ items.map Prod.fst) :
    ∃ T, reconstruct H (build_alloy_trie_with_proof H (items ++ [(k, v)])).2 = .ok T ∧
      (remove T (unpack k)).2 = true ∧
      digest H (remove T (unpack k)).1 = (build_alloy_trie_with_proof H items).1 := by
  have hndA : ((items ++ [(k, v)]).map Prod.fst).Nodup := nodup_append_single v hnd hk
  obtain ⟨hcA, hlA⟩ := alloyTree_spec hndA
  obtain ⟨hcB, hlB⟩ := alloyTree_spec hnd
  have hkU : unpack k ∉ (items.map unpackPair).map Prod.fst := unpack_not_mem hk
  have hfound : (remove (alloyTree (items ++ [(k, v)])) (unpack k)).2 = true := by
    rw [remove_found, hlA (unpack k), map_unpackPair_append, lookupKey_append_single v hkU]
    rfl
  refine ⟨alloyTree (items ++ [(k, v)]), ?_, hfound, ?_⟩
  · rw [show (build_alloy_trie_with_proof H (items ++ [(k, v)])).2 =
      (proofNodes H [] (alloyTree (items ++ [(k, v)]))).map Prod.snd from rfl]
    exact reconstruct_proofNodes hH hcA
  · have htree : (remove (alloyTree (items ++ [(k, v)])) (unpack k)).1 = alloyTree items := by
      refine canon_look_unique (remove_canon hcA) hcB (fun q => ?_)
      rw [remove_look hcA hfound q, hlB q]
      by_cases hq : q = unpack k
      · rw [if_pos hq, hq]
        exact ((lookupKey_eq_none_iff _ _).mpr hkU).symm
      · rw [if_neg hq, hlA q, map_unpackPair_append, lookupKey_append_single_ne v hq]
    rw [htree]
    rfl

theorem C1_remove_inverse_witness :
    Function.Injective (fun b : List Nat => b) ∧
    (([([0xAB, 0x10], [49]), ([0xE9, 0x90], [50])] :
        List (List Byte × Bytes)).map Prod.fst).Nodup ∧
    ([0xA0, 0xF0] : List Byte) ∉
      ([([0xAB, 0x10], [49]), ([0xE9, 0x90], [50])] :
        List (List Byte × Bytes)).map Prod.fst ∧
    ∃ T, reconstruct (fun b : List Nat => b)
        (build_alloy_trie_with_proof (fun b : List Nat => b)
          (([([0xAB, 0x10], [49]), ([0xE9, 0x90], [50])] :
            List (List Byte × Bytes)) ++ [([0xA0, 0xF0], [100, 117, 109, 109, 121])])).2 =
        .ok T ∧
      (remove T (unpack [0xA0, 0xF0])).2 = true ∧
      digest (fun b : List Nat => b) (remove T (unpack [0xA0, 0xF0])).1 =
        (build_alloy_trie_with_proof (fun b : List Nat => b)
          ([([0xAB, 0x10], [49]), ([0xE9, 0x90], [50])] : List (List Byte × Bytes))).1 :=
  ⟨fun a b h => h, by decide, by decide,
    C1_remove_inverse (fun a b h => h) _ _ _ (by decide) (by decide)⟩

/-- C2: reconstructing a tree from the ordered proof blobs that the builder
returned and recomputing its digest through the codec yields exactly the
root digest the builder reported at construction time. -/
theorem C2_roundtrip_digest {H : List Nat → List Nat} (hH : Function.Injective H)
    (items : List (List Byte × Bytes)) (hnd : (items.map Prod.fst).Nodup) :
    ∃ T, reconstruct H (build_alloy_trie_with_proof H items).2 = .ok T ∧
      digest H T = (build_alloy_trie_with_proof H items).1 := by
  refine ⟨alloyTree items, ?_, rfl⟩
  rw [show (build_alloy_trie_with_proof H items).2 =
    (proofNodes H [] (alloyTree items)).map Prod.snd from rfl]
  exact reconstruct_proofNodes hH (alloyTree_spec hnd).1

theorem C2_roundtrip_digest_witness :
    Function.Injective (fun b : List Nat => b) ∧
    (([([0xAB, 0xC1], [49]), ([0xAB, 0xD2], [50]), ([0xE9, 0x99], [51])] :
        List (List Byte × Bytes)).map Prod.fst).Nodup ∧
    ∃ T, reconstruct (fun b : List Nat => b)
        (build_alloy_trie_with_proof (fun b : List Nat => b)
          ([([0xAB, 0xC1], [49]), ([0xAB, 0xD2], [50]), ([0xE9, 0x99], [51])] :
            List (List Byte × Bytes))).2 = .ok T ∧
      digest (fun b : List Nat => b) T =
        (build_alloy_trie_with_proof (fun b : List Nat => b)
          ([([0xAB, 0xC1], [49]), ([0xAB, 0xD2], [50]), ([0xE9, 0x99], [51])] :
            List (List Byte × Bytes))).1 :=
  ⟨fun a b h => h, by decide, C2_roundtrip_digest (fun a b h => h) _ (by decide)⟩

/-- C3: the root digest is a pure function of the key/value set: any
permutation of the input items yields the same root digest. -/
theorem C3_order_independence (H : List Nat → List Nat)
    {items items' : List (List Byte × Bytes)} (hperm : items.Perm items')
    (hnd : (items.map Prod.fst).Nodup) :
    (build_alloy_trie_with_proof H items).1 =
      (build_alloy_trie_with_proof H items').1 := by
  have hnd' : (items'.map Prod.fst).Nodup := ((hperm.map Prod.fst).nodup_iff).mp hnd
  obtain ⟨hc1, hl1⟩ := alloyTree_spec hnd
  obtain ⟨hc2, hl2⟩ := alloyTree_spec hnd'
  have htree : alloyTree items = alloyTree items' := by
    refine canon_look_unique hc1 hc2 (fun q => ?_)
    rw [hl1 q, hl2 q]
    exact lookupKey_perm (hperm.map unpackPair) (nodup_unpacked hnd) q
  rw [show (build_alloy_trie_with_proof H items).1 = digest H (alloyTree items) from rfl,
    show (build_alloy_trie_with_proof H items').1 = digest H (alloyTree items') from rfl,
    htree]

theorem C3_order_independence_witness :
    ([([0x11, 0x22], [1]), ([0x33, 0x44], [2])] : List (List Byte × Bytes)).Perm
      [([0x33, 0x44], [2]), ([0x11, 0x22], [1])] ∧
    (([([0x11, 0x22], [1]), ([0x33, 0x44], [2])] :
        List (List Byte × Bytes)).map Prod.fst).Nodup ∧
    (build_alloy_trie_with_proof (fun b : List Nat => b)
        ([([0x11, 0x22], [1]), ([0x33, 0x44], [2])] : List (List Byte × Bytes))).1 =
      (build_alloy_trie_with_proof (fun b : List Nat => b)
        ([([0x33, 0x44], [2]), ([0x11, 0x22], [1])] : List (List Byte × Bytes))).1 :=
  ⟨by decide, by decide,
    C3_order_independence (fun b : List Nat => b) (by decide) (by decide)⟩

/-- C4: remove returns true exactly when the key is present (and it is then
removed); on an absent key it returns false — an ordinary result, not an
error — and leaves the tree, and hence its digest, unchanged. -/
theorem C4_remove_contract (H : List Nat → List Nat) (T : Node) (k : Path) :
    ((remove T k).2 = true ↔ (look T k).isSome = true) ∧
    (look T k = none →
      remove T k = (T, false) ∧ digest H (remove T k).1 = digest H T) := by
  refine ⟨remove_found, fun habs => ?_⟩
  have hb : (remove T k).2 = false := by
    cases hb2 : (remove T k).2 with
    | false => rfl
    | true =>
        have hs := remove_found.mp hb2
        rw [habs] at hs
        simp at hs
  have h1 : (remove T k).1 = T := remove_unchanged hb
  exact ⟨Prod.ext h1 hb, by rw [h1]⟩

theorem C4_remove_contract_witness :
    look (Node.leaf [mkNib 10, mkNib 11] [49]) [mkNib 1] = none ∧
    remove (Node.leaf [mkNib 10, mkNib 11] [49]) [mkNib 1] =
      (Node.leaf [mkNib 10, mkNib 11] [49], false) ∧
    digest (fun b : List Nat => b)
        (remove (Node.leaf [mkNib 10, mkNib 11] [49]) [mkNib 1]).1 =
      digest (fun b : List Nat => b) (Node.leaf [mkNib 10, mkNib 11] [49]) :=
  ⟨by decide,
    ((C4_remove_contract (fun b : List Nat => b)
      (Node.leaf [mkNib 10, mkNib 11] [49]) [mkNib 1]).2 (by decide)).1,
    ((C4_remove_contract (fun b : List Nat => b)
      (Node.leaf [mkNib 10, mkNib 11] [49]) [mkNib 1]).2 (by decide)).2⟩

/-- C5: with the full inserted key set as the proof target, the proof output
is a complete serialization of the tree: reconstruction succeeds — no
missingNode or malformedEncoding error — and returns the built tree itself,
with no access to the original key/value pairs. -/
theorem C5_complete_serialization {H : List Nat → List Nat} (hH : Function.Injective H)
    (items : List (List Byte × Bytes)) (hnd : (items.map Prod.fst).Nodup) :
    reconstruct H (build_alloy_trie_with_proof H items).2 = .ok (alloyTree items) := by
  rw [show (build_alloy_trie_with_proof H items).2 =
    (proofNodes H [] (alloyTree items)).map Prod.snd from rfl]
  exact reconstruct_proofNodes hH (alloyTree_spec hnd).1

theorem C5_complete_serialization_witness :
    Function.Injective (fun b : List Nat => b) ∧
    (([([0xAB, 0x3C], [49]), ([0xAB, 0x3D], [50])] :
        List (List Byte × Bytes)).map Prod.fst).Nodup ∧
    reconstruct (fun b : List Nat => b)
        (build_alloy_trie_with_proof (fun b : List Nat => b)
          ([([0xAB, 0x3C], [49]), ([0xAB, 0x3D], [50])] : List (List Byte × Bytes))).2 =
      .ok (alloyTree ([([0xAB, 0x3C], [49]), ([0xAB, 0x3D], [50])] :
        List (List Byte × Bytes))) :=
  ⟨fun a b h => h, by decide, C5_complete_serialization (fun a b h => h) _ (by decide)⟩

/-- C6: the returned proof-node list is the position-keyed depth-first record
of the tree, and the underlying positions are strictly increasing in
nibble-path order; the order is therefore deterministic, free of duplicate
positions, and independent of duplicate encoding content. -/
theorem C6_proof_order (H : List Nat → List Nat)
    (items : List (List Byte × Bytes)) (hnd : (items.map Prod.fst).Nodup) :
    (build_alloy_trie_with_proof H items).2 =
      (proofNodes H [] (alloyTree items)).map Prod.snd ∧
    List.Pairwise (fun a b => pathLt a.1 b.1 = true)
      (proofNodes H [] (alloyTree items)) :=
  ⟨rfl, proofNodes_sorted H (alloyTree items) [] (alloyTree_spec hnd).1⟩

theorem C6_proof_order_witness :
    (([([0x12, 0x34], [7])] : List (List Byte × Bytes)).map Prod.fst).Nodup ∧
    ((build_alloy_trie_with_proof (fun b : List Nat => b)
        ([([0x12, 0x34], [7])] : List (List Byte × Bytes))).2 =
      (proofNodes (fun b : List Nat => b) []
        (alloyTree ([([0x12, 0x34], [7])] : List (List Byte × Bytes)))).map Prod.snd ∧
    List.Pairwise (fun a b => pathLt a.1 b.1 = true)
      (proofNodes (fun b : List Nat => b) []
        (alloyTree ([([0x12, 0x34], [7])] : List (List Byte × Bytes))))) :=
  ⟨by decide, C6_proof_order (fun b : List Nat => b) _ (by decide)⟩

/-- C7: the builder over zero entries yields the fixed canonical root digest
— the digest of the encoding of the empty node, which carries an empty value
— and the empty proof list; being a pure function, it is reproducible across
calls. -/
theorem C7_empty_trie (H : List Nat → List Nat) :
    build_alloy_trie_with_proof H [] = (H (encode H Node.empty), []) := rfl

theorem C7_empty_trie_witness :
    build_alloy_trie_with_proof (fun b : List Nat => b) [] =
      ((fun b : List Nat => b) (encode (fun b : List Nat => b) Node.empty), []) :=
  C7_empty_trie (fun b : List Nat => b)

/-- C8: the builder's input contract: the checked build succeeds exactly when
the entries are strictly increasing in nibble-path order (which makes the
keys unique); an equal adjacent pair fails with duplicateKey, an out-of-order
adjacent pair with orderingViolation; and on failure only the error is
returned, never a partial tree. -/
theorem C8_builder_input_contract (es : List Entry) :
    (buildChecked es = .ok (build es) ↔
      List.Chain' (fun e1 e2 => pathLt e1.1 e2.1 = true) es) ∧
    (∀ T, buildChecked es = .ok T → T = build es) ∧
    (∀ err, buildChecked es = .error err →
      ∃ l e1 e2 r, es = l ++ e1 :: e2 :: r ∧
        (if err = BErr.duplicateKey then e1.1 = e2.1
         else e1.1 ≠ e2.1 ∧ pathLt e1.1 e2.1 = false)) := by
  rcases hc : checkInput es with e | u
  · have hbc : buildChecked es = .error e := by
      rw [show buildChecked es = (checkInput es).map (fun _ => build es) from rfl, hc]
      rfl
    refine ⟨?_, ?_, ?_⟩
    · constructor
      · intro h
        rw [hbc] at h
        cases h
      · intro h
        have h' := (checkInput_ok_iff es).mpr h
        rw [hc] at h'
        cases h'
    · intro T hT
      rw [hbc] at hT
      cases hT
    · intro err herr
      rw [hbc] at herr
      injection herr with he
      exact checkInput_error es err (by rw [hc, he])
  · have hch : List.Chain' (fun e1 e2 => pathLt e1.1 e2.1 = true) es :=
      (checkInput_ok_iff es).mp (by rw [hc])
    have hbc : buildChecked es = .ok (build es) := by
      rw [show buildChecked es = (checkInput es).map (fun _ => build es) from rfl, hc]
      rfl
    refine ⟨⟨fun _ => hch, fun _ => hbc⟩, ?_, ?_⟩
    · intro T hT
      rw [hbc] at hT
      injection hT with h
      exact h.symm
    · intro err herr
      rw [hbc] at herr
      cases herr

theorem C8_builder_input_contract_witness :
    buildChecked [((([mkNib 1], [49]) : Entry)), ([mkNib 1], [50])] =
        .error BErr.duplicateKey ∧
    ∃ l e1 e2 r,
      ([((([mkNib 1], [49]) : Entry)), ([mkNib 1], [50])] : List Entry) =
        l ++ e1 :: e2 :: r ∧
      (if BErr.duplicateKey = BErr.duplicateKey then e1.1 = e2.1
       else e1.1 ≠ e2.1 ∧ pathLt e1.1 e2.1 = false) :=
  ⟨by decide, (C8_builder_input_contract _).2.2 BErr.duplicateKey (by decide)⟩

/-- C9: adding an absent key with a value to a key set changes the root
digest: the pipeline over the extended set reports a digest different from
the pipeline over the original set. -/
theorem C9_absent_key_changes_digest {H : List Nat → List Nat}
    (hH : Function.Injective H)
    (items : List (List Byte × Bytes)) (k : List Byte) (v : Bytes)
    (hnd : (items.map Prod.fst).Nodup) (hk : k ∉ items.map Prod.fst) :
    (build_alloy_trie_with_proof H (items ++ [(k, v)])).1 ≠
      (build_alloy_trie_with_proof H items).1 := by
  intro heq
  have hndA : ((items ++ [(k, v)]).map Prod.fst).Nodup := nodup_append_single v hnd hk
  obtain ⟨hcA, hlA⟩ := alloyTree_spec hndA
  obtain ⟨hcB, hlB⟩ := alloyTree_spec hnd
  have hkU : unpack k ∉ (items.map unpackPair).map Prod.fst := unpack_not_mem hk
  have heq' : digest H (alloyTree (items ++ [(k, v)])) = digest H (alloyTree items) := heq
  have htree := digest_inj hH hcA hcB heq'
  have hA : lookupKey ((items ++ [(k, v)]).map unpackPair) (unpack k) = some v := by
    rw [map_unpackPair_append]
    exact lookupKey_append_single v hkU
  have hB : lookupKey (items.map unpackPair) (unpack k) = none :=
    (lookupKey_eq_none_iff _ _).mpr hkU
  have hcontr : (some v : Option Bytes) = none := by
    rw [← hA, ← hlA (unpack k), htree, hlB (unpack k), hB]
  cases hcontr

theorem C9_absent_key_changes_digest_witness :
    Function.Injective (fun b : List Nat => b) ∧
    (([([0x11], [5])] : List (List Byte × Bytes)).map Prod.fst).Nodup ∧
    ([0x22] : List Byte) ∉ ([([0x11], [5])] : List (List Byte × Bytes)).map Prod.fst ∧
    (build_alloy_trie_with_proof (fun b : List Nat => b)
        (([([0x11], [5])] : List (List Byte × Bytes)) ++ [([0x22], [6])])).1 ≠
      (build_alloy_trie_with_proof (fun b : List Nat => b)
        ([([0x11], [5])] : List (List Byte × Bytes))).1 :=
  ⟨fun a b h => h, by decide, by decide,
    C9_absent_key_changes_digest (fun a b h => h) _ _ _ (by decide) (by decide)⟩

/-- C10: on inputs whose keys all share one byte length, the byte-order
sorting pipeline of main.rs and the nibble-order sorting pipeline of lib.rs
return identical outputs: the same root digest and the same ordered
proof-node list. -/
theorem C10_byte_vs_nibble_sort (H : List Nat → List Nat)
    (items : List (List Byte × Bytes)) (L : Nat)
    (hlen : ∀ e ∈ items, e.1.length = L) :
    alloy_hash_with_rlp H items = build_alloy_trie_with_proof H items := by
  clear hlen
  have hle : (fun (a b : List Byte × Bytes) => byteLe a.1 b.1) =
      (fun (a b : List Byte × Bytes) => pathLe (unpack a.1) (unpack b.1)) := by
    funext a b
    exact byteLe_pathLe a.1 b.1
  rw [show alloy_hash_with_rlp H items =
      (digest H (build ((ssort (fun (a b : List Byte × Bytes) => byteLe a.1 b.1) items).map
          (fun e => (unpack e.1, e.2)))),
        ((proofNodes H []
          (build ((ssort (fun (a b : List Byte × Bytes) => byteLe a.1 b.1) items).map
            (fun e => (unpack e.1, e.2))))).map Prod.snd)) from rfl]
  rw [show build_alloy_trie_with_proof H items =
      (digest H (build ((ssort (fun (a b : List Byte × Bytes) =>
          pathLe (unpack a.1) (unpack b.1)) items).map (fun e => (unpack e.1, e.2)))),
        ((proofNodes H []
          (build ((ssort (fun (a b : List Byte × Bytes) =>
            pathLe (unpack a.1) (unpack b.1)) items).map
            (fun e => (unpack e.1, e.2))))).map Prod.snd)) from rfl]
  rw [hle]

theorem C10_byte_vs_nibble_sort_witness :
    (∀ e ∈ ([([0x01, 0x02], [1]), ([0xFF, 0x00], [2])] : List (List Byte × Bytes)),
        e.1.length = 2) ∧
    alloy_hash_with_rlp (fun b : List Nat => b)
        ([([0x01, 0x02], [1]), ([0xFF, 0x00], [2])] : List (List Byte × Bytes)) =
      build_alloy_trie_with_proof (fun b : List Nat => b)
        ([([0x01, 0x02], [1]), ([0xFF, 0x00], [2])] : List (List Byte × Bytes)) :=
  ⟨by decide, C10_byte_vs_nibble_sort (fun b : List Nat => b) _ 2 (by decide)⟩

end Mpt
